import Mathlib

/-!
# Verification of the pws multi-chain synchronization engine

Shallow embedding of the repository's core: the chain-client manager
(`src/client_manager.rs`), the notification-driven sync cycle of the
`Watch` command (`src/main.rs`), the Supabase sink model helpers
(`src/supabase.rs`, `src/models/*.rs`), and the participants decoder
(`src/models/participants.rs`).

Rust `HashMap`s are modelled as association lists with explicit
`findA` / `insertA` operations; `Arc` identity is modelled by a
numeric handle; panics are modelled by explicit outcome constructors;
the external HTTP sink is modelled by a success oracle on write
operations together with a trace of the operations attempted.
-/

namespace PWS

/-! ## Association-list model of `HashMap` -/

/-- Lookup in an association list (model of `HashMap::get`). -/
def findA {α : Type} : List (String × α) → String → Option α
  | [], _ => none
  | (k, v) :: rest, key => if k = key then some v else findA rest key

/-- Insert-or-replace in an association list (model of `HashMap::insert`). -/
def insertA {α : Type} : List (String × α) → String → α → List (String × α)
  | [], key, v => [(key, v)]
  | (k, w) :: rest, key, v =>
    if k = key then (key, v) :: rest else (k, w) :: insertA rest key v

/-- The keys of an association list. -/
def keysA {α : Type} (l : List (String × α)) : List String :=
  l.map Prod.fst

@[simp] theorem keysA_nil {α : Type} : keysA ([] : List (String × α)) = [] := rfl

@[simp] theorem keysA_cons {α : Type} (k : String) (v : α) (l : List (String × α)) :
    keysA ((k, v) :: l) = k :: keysA l := rfl

theorem findA_insertA_self {α : Type} (l : List (String × α)) (k : String) (v : α) :
    findA (insertA l k v) k = some v := by
  induction l with
  | nil => simp [insertA, findA]
  | cons hd tl ih =>
    obtain ⟨k', v'⟩ := hd
    by_cases h : k' = k
    · simp [insertA, h, findA]
    · simp [insertA, h, findA, ih]

theorem findA_insertA_ne {α : Type} (l : List (String × α)) (k k' : String) (v : α)
    (h : k ≠ k') : findA (insertA l k v) k' = findA l k' := by
  induction l with
  | nil => simp [insertA, findA, h]
  | cons hd tl ih =>
    obtain ⟨k₀, v₀⟩ := hd
    by_cases hk : k₀ = k
    · subst hk
      simp [insertA, findA, h]
    · simp [insertA, hk, findA, ih]

theorem keysA_insertA {α : Type} (l : List (String × α)) (k : String) (v : α)
    (h : findA l k = none) : keysA (insertA l k v) = keysA l ++ [k] := by
  induction l with
  | nil => simp [insertA, keysA]
  | cons hd tl ih =>
    obtain ⟨k₀, v₀⟩ := hd
    by_cases hk : k₀ = k
    · simp [findA, hk] at h
    · simp [findA, hk] at h
      simp [insertA, hk, keysA] at ih ⊢
      exact ih h

theorem findA_none_of_not_mem_keysA {α : Type} (l : List (String × α)) (k : String)
    (h : k ∉ keysA l) : findA l k = none := by
  induction l with
  | nil => rfl
  | cons hd tl ih =>
    obtain ⟨k₀, v₀⟩ := hd
    rw [keysA_cons, List.mem_cons] at h
    push_neg at h
    have hne : ¬ k₀ = k := fun hc => h.1 hc.symm
    simp [findA, hne, ih h.2]

theorem keysA_insertA_of_found {α : Type} (l : List (String × α)) (k : String) (v w : α)
    (h : findA l k = some w) : keysA (insertA l k v) = keysA l := by
  induction l with
  | nil => simp [findA] at h
  | cons hd tl ih =>
    obtain ⟨k₀, v₀⟩ := hd
    by_cases hk : k₀ = k
    · subst hk
      simp [insertA, keysA]
    · simp [findA, hk] at h
      simp [insertA, hk, keysA] at ih ⊢
      exact ih h

theorem not_mem_keysA_of_findA_none {α : Type} (l : List (String × α)) (k : String)
    (h : findA l k = none) : k ∉ keysA l := by
  induction l with
  | nil => simp
  | cons hd tl ih =>
    obtain ⟨k₀, v₀⟩ := hd
    by_cases hk : k₀ = k
    · simp [findA, hk] at h
    · simp [findA, hk] at h
      rw [keysA_cons, List.mem_cons]
      push_neg
      exact ⟨fun hc => hk hc.symm, ih h⟩

theorem nodup_keysA_insertA {α : Type} (l : List (String × α)) (k : String) (v : α)
    (hnd : (keysA l).Nodup) : (keysA (insertA l k v)).Nodup := by
  cases hfind : findA l k with
  | none =>
    rw [keysA_insertA l k v hfind]
    simpa [List.nodup_append] using ⟨hnd, fun hc => not_mem_keysA_of_findA_none l k hfind hc⟩
  | some w =>
    rw [keysA_insertA_of_found l k v w hfind]
    exact hnd

/-! ## Chain client manager (`src/client_manager.rs`)

`ChainClientManager` guards a `HashMap<ChainId, Arc<RunningChain>>` behind a
single `tokio::sync::Mutex`, and `try_spawn_chain` holds that lock for its
entire body (lookup, connection, registration).  Calls are therefore fully
serialized, and the manager is modelled as a sequential state machine.

- `ChainId` is modelled as `String` (an opaque stable identifier).
- `Arc<RunningChain>` identity is modelled by a numeric handle allocated
  from a counter; two calls receive "the same `Arc`" iff the handles are
  equal numbers.
- The connection step `main_client.assign_and_make_client(chain_id).await`
  and `chain.application(app_id).await` are external calls that can fail;
  in the source both results are `.unwrap()`ed, so a failure is a panic.
  The per-call success of that step is a `Bool` parameter, and a panic is
  the explicit `SpawnResult.panicked` outcome (no registry insertion
  happens on that path, and the lock is released by unwinding). -/

/-- Outcome of a `try_spawn_chain` call: either an `Arc` handle, or a panic
raised by the `.unwrap()` on the failed connection step. -/
inductive SpawnResult where
  | handle (h : Nat)
  | panicked
deriving DecidableEq, Repr

/-- The manager's state: the registry (`clients` map) plus a counter
allocating fresh `Arc` identities. -/
structure ManagerState where
  clients : List (String × Nat)
  next : Nat
deriving DecidableEq, Repr

namespace ChainClientManager

/-- Model of `ChainClientManager::try_spawn_chain`.  The source locks the
registry, returns the existing handle on a hit, and otherwise connects
(`connectOk` tells whether the external connection step succeeds — on
failure the `.unwrap()` panics), registers a fresh `RunningChain`, and
returns it. -/
def try_spawn_chain (st : ManagerState) (cid : String) (connectOk : Bool) :
    ManagerState × SpawnResult :=
  match findA st.clients cid with
  | some h => (st, .handle h)
  | none =>
    if connectOk then
      ({ clients := insertA st.clients cid st.next, next := st.next + 1 },
        .handle st.next)
    else
      (st, .panicked)

/-- Model of `ChainClientManager::ensure_running`: parse the identity string
(`ChainId::from_str`, an external parser modelled as a function
`String → Option String`); on a parse failure return silently, otherwise
call `try_spawn_chain` and drop the handle. -/
def ensure_running (st : ManagerState) (parse : String → Option String)
    (cidStr : String) (connectOk : Bool) : ManagerState :=
  match parse cidStr with
  | none => st
  | some cid => (try_spawn_chain st cid connectOk).1

/-- A sequence of `try_spawn_chain` calls in which every connection step
succeeds, returning the final state and the handle observed by each call. -/
def runCalls (st : ManagerState) : List String → ManagerState × List Nat
  | [] => (st, [])
  | cid :: rest =>
    match try_spawn_chain st cid true with
    | (st1, .handle h) =>
      let (st2, hs) := runCalls st1 rest
      (st2, h :: hs)
    | (st1, .panicked) => (st1, [])

end ChainClientManager

/-- The handles observed by the calls of a sequence that used identity `cid`. -/
def handlesFor (cid : String) : List String → List Nat → List Nat
  | c :: cs, h :: hs => (if c = cid then [h] else []) ++ handlesFor cid cs hs
  | _, _ => []

/-- Number of occurrences of an identity in a call sequence. -/
def countOcc (cid : String) : List String → Nat
  | [] => 0
  | c :: cs => (if c = cid then 1 else 0) + countOcc cid cs

theorem replicate_one_add {α : Type} (n : Nat) (x : α) :
    List.replicate (1 + n) x = x :: List.replicate n x := by
  rw [Nat.add_comm]
  rfl

namespace ChainClientManager

theorem try_spawn_chain_hit (st : ManagerState) (cid : String) (b : Bool) (h : Nat)
    (hfind : findA st.clients cid = some h) :
    try_spawn_chain st cid b = (st, .handle h) := by
  simp [try_spawn_chain, hfind]

theorem try_spawn_chain_miss (st : ManagerState) (cid : String)
    (hfind : findA st.clients cid = none) :
    try_spawn_chain st cid true =
      ({ clients := insertA st.clients cid st.next, next := st.next + 1 },
        .handle st.next) := by
  simp [try_spawn_chain, hfind]

theorem runCalls_length (cids : List String) : ∀ st : ManagerState,
    (runCalls st cids).2.length = cids.length := by
  induction cids with
  | nil => intro st; rfl
  | cons c rest ih =>
    intro st
    cases hfind : findA st.clients c with
    | some h =>
      simp [runCalls, try_spawn_chain_hit st c true h hfind, ih]
    | none =>
      simp [runCalls, try_spawn_chain_miss st c hfind, ih]

theorem runCalls_nodup (cids : List String) : ∀ st : ManagerState,
    (keysA st.clients).Nodup → (keysA (runCalls st cids).1.clients).Nodup := by
  induction cids with
  | nil => intro st hnd; exact hnd
  | cons c rest ih =>
    intro st hnd
    cases hfind : findA st.clients c with
    | some h =>
      simpa [runCalls, try_spawn_chain_hit st c true h hfind] using ih st hnd
    | none =>
      simpa [runCalls, try_spawn_chain_miss st c hfind] using
        ih _ (nodup_keysA_insertA st.clients c st.next hnd)

/-- Once an identity is registered with handle `h`, every later call in a
sequence observes exactly `h`, and the registration survives. -/
theorem runCalls_persist (cids : List String) : ∀ (st : ManagerState) (cid : String) (h : Nat),
    findA st.clients cid = some h →
    findA (runCalls st cids).1.clients cid = some h ∧
    handlesFor cid cids (runCalls st cids).2 = List.replicate (countOcc cid cids) h := by
  induction cids with
  | nil => intro st cid h hreg; exact ⟨hreg, rfl⟩
  | cons c rest ih =>
    intro st cid h hreg
    by_cases hc : c = cid
    · subst hc
      have hstep := try_spawn_chain_hit st c true h hreg
      have ihr := ih st c h hreg
      refine ⟨by simpa [runCalls, hstep] using ihr.1, ?_⟩
      simp [runCalls, hstep, handlesFor, countOcc, ihr.2, replicate_one_add]
    · cases hfind : findA st.clients c with
      | some h' =>
        have hstep := try_spawn_chain_hit st c true h' hfind
        have ihr := ih st cid h hreg
        refine ⟨by simpa [runCalls, hstep] using ihr.1, ?_⟩
        simp [runCalls, hstep, handlesFor, hc, countOcc, ihr.2]
      | none =>
        have hstep := try_spawn_chain_miss st c hfind
        have hreg' : findA (insertA st.clients c st.next) cid = some h := by
          rw [findA_insertA_ne st.clients c cid st.next hc]; exact hreg
        have ihr := ih { clients := insertA st.clients c st.next, next := st.next + 1 }
          cid h hreg'
        refine ⟨by simpa [runCalls, hstep] using ihr.1, ?_⟩
        simp [runCalls, hstep, handlesFor, hc, countOcc]
        simpa [runCalls, hstep] using ihr.2

/-- An identity not yet registered is registered by its first call, and all
its calls in the sequence observe that first call's handle. -/
theorem runCalls_fresh (cids : List String) : ∀ (st : ManagerState) (cid : String),
    findA st.clients cid = none → cid ∈ cids →
    ∃ h, findA (runCalls st cids).1.clients cid = some h ∧
      handlesFor cid cids (runCalls st cids).2 = List.replicate (countOcc cid cids) h := by
  induction cids with
  | nil => intro st cid _ hmem; exact absurd hmem (List.not_mem_nil cid)
  | cons c rest ih =>
    intro st cid hfresh hmem
    by_cases hc : c = cid
    · subst hc
      have hstep := try_spawn_chain_miss st c hfresh
      have hreg : findA (insertA st.clients c st.next) c = some st.next :=
        findA_insertA_self st.clients c st.next
      have hp := runCalls_persist rest
        { clients := insertA st.clients c st.next, next := st.next + 1 } c st.next hreg
      refine ⟨st.next, by simpa [runCalls, hstep] using hp.1, ?_⟩
      simp [runCalls, hstep, handlesFor, countOcc, replicate_one_add]
      simpa [runCalls, hstep] using hp.2
    · have hmem' : cid ∈ rest := by
        rcases List.mem_cons.mp hmem with h | h
        · exact absurd h.symm hc
        · exact h
      cases hfind : findA st.clients c with
      | some h' =>
        have hstep := try_spawn_chain_hit st c true h' hfind
        obtain ⟨h, h1, h2⟩ := ih st cid hfresh hmem'
        exact ⟨h, by simpa [runCalls, hstep] using h1, by
          simp [runCalls, hstep, handlesFor, hc, countOcc]
          simpa [runCalls, hstep] using h2⟩
      | none =>
        have hstep := try_spawn_chain_miss st c hfind
        have hfresh' : findA (insertA st.clients c st.next) cid = none := by
          rw [findA_insertA_ne st.clients c cid st.next hc]; exact hfresh
        obtain ⟨h, h1, h2⟩ := ih
          { clients := insertA st.clients c st.next, next := st.next + 1 } cid hfresh' hmem'
        exact ⟨h, by simpa [runCalls, hstep] using h1, by
          simp [runCalls, hstep, handlesFor, hc, countOcc]
          simpa [runCalls, hstep] using h2⟩

end ChainClientManager

/-- C1: for every sequence of `try_spawn_chain` / `ensure_running` calls with
the same chain identity, exactly one `RunningChain` is created and
registered: the registry maps each identity to at most one worker at all
times (its keys are duplicate-free), every call observes a handle, and every
call using that identity observes the one handle that its first call
registered (Arc-identity modelled as handle equality). -/
theorem chain_manager_idempotent_spawn (cids : List String) (cid : String)
    (hmem : cid ∈ cids) :
    (keysA (ChainClientManager.runCalls ⟨[], 0⟩ cids).1.clients).Nodup ∧
    (ChainClientManager.runCalls ⟨[], 0⟩ cids).2.length = cids.length ∧
    ∃ h, findA (ChainClientManager.runCalls ⟨[], 0⟩ cids).1.clients cid = some h ∧
      handlesFor cid cids (ChainClientManager.runCalls ⟨[], 0⟩ cids).2 =
        List.replicate (countOcc cid cids) h := by
  refine ⟨ChainClientManager.runCalls_nodup cids ⟨[], 0⟩ (by simp), ?_, ?_⟩
  · exact ChainClientManager.runCalls_length cids ⟨[], 0⟩
  · exact ChainClientManager.runCalls_fresh cids ⟨[], 0⟩ cid rfl hmem

theorem chain_manager_idempotent_spawn_witness :
    (keysA (ChainClientManager.runCalls ⟨[], 0⟩ ["X", "X", "Y"]).1.clients).Nodup ∧
    (ChainClientManager.runCalls ⟨[], 0⟩ ["X", "X", "Y"]).2.length = 3 ∧
    ∃ h, findA (ChainClientManager.runCalls ⟨[], 0⟩ ["X", "X", "Y"]).1.clients "X" = some h ∧
      handlesFor "X" ["X", "X", "Y"] (ChainClientManager.runCalls ⟨[], 0⟩ ["X", "X", "Y"]).2 =
        List.replicate (countOcc "X" ["X", "X", "Y"]) h :=
  chain_manager_idempotent_spawn ["X", "X", "Y"] "X" (by decide)

/-- C5 counterexample: the claim says a failed spawn "reports the error to
its caller".  In the source `try_spawn_chain` returns a bare
`Arc<RunningChain>` (no error case exists in its return type) and the failed
connection step is `.unwrap()`ed, so at a concrete input — empty registry,
identity `"c"`, failing connection — the call panics instead of returning an
error value. -/
theorem try_spawn_chain_failure_panics_cex :
    ChainClientManager.try_spawn_chain ⟨[], 0⟩ "c" false = (⟨[], 0⟩, .panicked) := by
  rfl

/-- C5 amended: if spawning fails, the call panics (via `.unwrap()`) rather
than returning an error value, and it makes no registry entry; the identity
is not blacklisted — an immediately retried call with the same identity
attempts the spawn again and succeeds (registering the worker) once the
connection step succeeds.  A malformed identity makes `ensure_running`
return silently without touching the registry. -/
theorem try_spawn_chain_failure_no_entry (st : ManagerState) (cid : String)
    (hfresh : findA st.clients cid = none) :
    ChainClientManager.try_spawn_chain st cid false = (st, .panicked) ∧
    (ChainClientManager.try_spawn_chain st cid true).2 = .handle st.next ∧
    findA (ChainClientManager.try_spawn_chain st cid true).1.clients cid = some st.next ∧
    (∀ (parse : String → Option String) (s : String) (b : Bool), parse s = none →
      ChainClientManager.ensure_running st parse s b = st) := by
  refine ⟨?_, ?_, ?_, ?_⟩
  · simp [ChainClientManager.try_spawn_chain, hfresh]
  · simp [ChainClientManager.try_spawn_chain, hfresh]
  · simp [ChainClientManager.try_spawn_chain, hfresh]
    exact findA_insertA_self st.clients cid st.next
  · intro parse s b hp
    simp [ChainClientManager.ensure_running, hp]

theorem try_spawn_chain_failure_no_entry_witness :
    ChainClientManager.try_spawn_chain ⟨[], 0⟩ "c" false = (⟨[], 0⟩, .panicked) ∧
    (ChainClientManager.try_spawn_chain ⟨[], 0⟩ "c" true).2 = .handle 0 ∧
    findA (ChainClientManager.try_spawn_chain ⟨[], 0⟩ "c" true).1.clients "c" = some 0 ∧
    (∀ (parse : String → Option String) (s : String) (b : Bool), parse s = none →
      ChainClientManager.ensure_running ⟨[], 0⟩ parse s b = ⟨[], 0⟩) :=
  try_spawn_chain_failure_no_entry ⟨[], 0⟩ "c" rfl

/-! ## Record models (`src/models/*.rs`)

Rust `u32`/`u64`/`usize` counters are modelled as `Nat` (the pipeline only
compares and stringifies them; no arithmetic that could overflow occurs). -/

/-- `models/leaderboard.rs`: one leaderboard row. -/
structure Leaderboard where
  id : String
  name : Option String
  elo : Nat
  -- the source field is `matches`; that word is a Lean keyword, hence `matches_`
  matches_ : Nat
  won : Nat
  lost : Nat
deriving DecidableEq, Repr

/-- `models/game_count.rs`: the singleton game-count row (count stored as a
string in the sink). -/
structure GameCount where
  id : String
  count : String
deriving DecidableEq, Repr

/-- `models/match_history.rs`: a player reference. -/
structure Player where
  id : String
  name : Option String
deriving DecidableEq, Repr

/-- `models/match_history.rs`: the last match record as fetched. -/
structure MatchHistory where
  you : Player
  opponent : Player
  blob_hash : String
deriving DecidableEq, Repr

/-- `models/match_history.rs`: the row shape sent to the sink. -/
structure MatchHistoryDB where
  player_1_id : String
  player_1_name : Option String
  player_2_id : String
  player_2_name : Option String
  blob_hash : String
deriving DecidableEq, Repr

/-- `MatchHistory::for_db`. -/
def MatchHistory.for_db (m : MatchHistory) : MatchHistoryDB :=
  { player_1_id := m.you.id
    player_1_name := m.you.name
    player_2_id := m.opponent.id
    player_2_name := m.opponent.name
    blob_hash := m.blob_hash }

/-- `models/tournament.rs`: time-control settings. -/
structure TimeControl where
  base_minutes : Nat
  increment_seconds : Nat
  mode_label : Option String
deriving DecidableEq, Repr

/-- `models/tournament.rs`: a tournament as fetched from a chain. -/
structure Tournament where
  organiser_chain : String
  organiser_id : String
  organiser_name : String
  tournament_id : String
  tournament_name : String
  tournament_description : Option String
  tournament_format : String
  match_type : String
  game_mode : String
  time_control : Option TimeControl
  max_players : Option Nat
  min_players : Option Nat
  starting_time : Nat
  end_time : Nat
  prize_type : Option String
  prize_pool_description : Option String
  prize_pool : Nat
  visibility : String
  banner_image_url : Option String
  sponsor_logo_url : Option String
  custom_tags : List String
  version : String
  created_at : Nat
  updated_at : Nat
  status : String
deriving DecidableEq, Repr

/-- `models/tournament.rs`: the flattened row shape sent to the sink. -/
structure TournamentDB where
  tournament_id : String
  organiser_chain : String
  organiser_id : String
  organiser_name : String
  tournament_name : String
  tournament_description : Option String
  tournament_format : String
  match_type : String
  game_mode : String
  time_control_base_minutes : Nat
  time_control_increment_seconds : Nat
  time_control_mode_label : Option String
  max_players : Option Nat
  min_players : Option Nat
  starting_time : Nat
  end_time : Nat
  prize_pool_description : Option String
  visibility : String
  banner_image_url : Option String
  sponsor_logo_url : Option String
  prize_type : Option String
  prize_pool : Nat
  custom_tags : List String
  version : String
  created_at : Nat
  updated_at : Nat
  status : String
deriving DecidableEq, Repr

/-- `Tournament::for_db`: flattens the optional `TimeControl` with
`unwrap_or(0)` / `unwrap_or(None)` defaults as in the source. -/
def Tournament.for_db (t : Tournament) : TournamentDB :=
  { tournament_id := t.tournament_id
    organiser_chain := t.organiser_chain
    organiser_id := t.organiser_id
    organiser_name := t.organiser_name
    tournament_name := t.tournament_name
    tournament_description := t.tournament_description
    tournament_format := t.tournament_format
    match_type := t.match_type
    game_mode := t.game_mode
    time_control_base_minutes := (t.time_control.map (fun tc => tc.base_minutes)).getD 0
    time_control_increment_seconds :=
      (t.time_control.map (fun tc => tc.increment_seconds)).getD 0
    time_control_mode_label := (t.time_control.map (fun tc => tc.mode_label)).getD none
    max_players := t.max_players
    min_players := t.min_players
    starting_time := t.starting_time
    end_time := t.end_time
    prize_pool_description := t.prize_pool_description
    visibility := t.visibility
    banner_image_url := t.banner_image_url
    sponsor_logo_url := t.sponsor_logo_url
    prize_type := t.prize_type
    prize_pool := t.prize_pool
    custom_tags := t.custom_tags
    version := t.version
    created_at := t.created_at
    updated_at := t.updated_at
    status := t.status }

/-- `models/tournament.rs`: per-player info inside a participant. -/
structure PlayerInfo where
  name : Option String
  elo : Nat
  -- the source field is `matches`; that word is a Lean keyword, hence `matches_`
  matches_ : Nat
  ath : Nat
deriving DecidableEq, Repr

/-- `models/tournament.rs`: a tournament participant as fetched. -/
structure TournamentParticipant where
  id : String
  player : PlayerInfo
deriving DecidableEq, Repr

/-- `models/tournament.rs`: the participant row shape sent to the sink. -/
structure TournamentParticipantDB where
  id : String
  tournament_id : String
  player_name : Option String
  player_elo : Nat
  player_matches : Nat
  player_ath : Nat
deriving DecidableEq, Repr

/-- `TournamentParticipant::for_db`. -/
def TournamentParticipant.for_db (p : TournamentParticipant) (tournament_id : String) :
    TournamentParticipantDB :=
  { id := p.id
    tournament_id := tournament_id
    player_name := p.player.name
    player_elo := p.player.elo
    player_matches := p.player.matches_
    player_ath := p.player.ath }

/-! ## The Watch sync cycle (`src/main.rs`, `Commands::Watch` handler)

One notification triggers one cycle.  The cycle's interactions are:

- *queries and parses*: bundled per record kind into a `CycleInput`.  A
  query failure and a parse failure both make the handler `return` early
  for every kind except the match history, whose parse failure is mapped
  to `None` and merely skips that kind; `matches` therefore distinguishes
  the query failure (`.error`), the parse failure (`.ok none`), a parsed
  null `matchHistoryLast` (`.ok (some none)`), and a match
  (`.ok (some (some m))`).
- *writes*: each attempted sink call is a `WriteOp`; its success is given
  by the oracle `wr : WriteOp → Bool`, and the cycle records the trace of
  attempted writes with their outcomes.
- `Leaderboard::replace_all` is two sequential sink calls (delete-all then
  bulk insert), reflected as two trace entries.
-/

/-- The `CachedState` struct of `src/main.rs` (`HashMap`s as assoc lists). -/
structure CachedState where
  count : Option Nat
  leaderboard : Option (List Leaderboard)
  matches_ : Option MatchHistory
  tournaments : List (String × Tournament)
  participants : List (String × List (String × TournamentParticipant))
deriving DecidableEq, Repr

/-- The empty initial cache created by the `Watch` command. -/
def CachedState.initial : CachedState :=
  { count := none, leaderboard := none, matches_ := none
    tournaments := [], participants := [] }

/-- One attempted sink write of the cycle.  `upsertTournament`,
`upsertParticipant` and `upsertCount` are `POST` upserts
(`Prefer: resolution=merge-duplicates`); `lbDeleteAll` and `lbInsertMany`
are the two halves of `Leaderboard::replace_all`; `insertMatch` is a plain
insert.  No operation deletes tournament or participant rows. -/
inductive WriteOp where
  | upsertTournament (t : TournamentDB)
  | upsertParticipant (p : TournamentParticipantDB)
  | upsertCount (g : GameCount)
  | lbDeleteAll
  | lbInsertMany (rows : List Leaderboard)
  | insertMatch (m : MatchHistoryDB)
deriving DecidableEq, Repr

/-- The per-kind query+parse results feeding one cycle. -/
structure CycleInput where
  tournaments : Except Unit (List Tournament)
  participants : String → Except Unit (List TournamentParticipant)
  leaderboard : Except Unit (List Leaderboard)
  count : Except Unit Nat
  matches_ : Except Unit (Option (Option MatchHistory))

/-- `participants_resp.data.participants.into_iter().map(|p| (p.id, p)).collect()`:
building the fetched participant map (later duplicates overwrite earlier). -/
def buildGo (m : List (String × TournamentParticipant)) :
    List TournamentParticipant → List (String × TournamentParticipant)
  | [] => m
  | p :: rest => buildGo (insertA m p.id p) rest

/-- The fetched participants keyed by id. -/
def buildParticipantsMap (ps : List TournamentParticipant) :
    List (String × TournamentParticipant) :=
  buildGo [] ps

/-- The participant loop of the handler: iterate the fetched map, compare
each entry against the cache sub-map for this tournament, upsert on a
difference or a new key, and update the cache sub-map only when the upsert
succeeded.  Returns the updated sub-map and the trace of attempted writes. -/
def processParticipants (wr : WriteOp → Bool) (tid : String) :
    List (String × TournamentParticipant) → List (String × TournamentParticipant) →
    List (String × TournamentParticipant) × List (WriteOp × Bool)
  | [], sub => (sub, [])
  | (pid, p) :: rest, sub =>
    if findA sub pid ≠ some p then
      let op := WriteOp.upsertParticipant (p.for_db tid)
      let ok := wr op
      let res := processParticipants wr tid rest (if ok then insertA sub pid p else sub)
      (res.1, (op, ok) :: res.2)
    else
      processParticipants wr tid rest sub

/-- One iteration of the handler's tournament loop: diff the tournament
against the cache (upsert and cache on success), then query+parse this
tournament's participants.  A participants query or parse failure makes
the whole handler `return`: the `Bool` is `false` and the cycle is aborted
with whatever cache changes and writes already happened.  On success the
participant sub-map is processed and stored back (the source's
`entry(..).or_default()` materializes the sub-map even when empty). -/
def processTournament (wr : WriteOp → Bool) (inp : CycleInput) (t : Tournament)
    (cache : CachedState) : CachedState × List (WriteOp × Bool) × Bool :=
  let step :=
    if findA cache.tournaments t.tournament_id ≠ some t then
      let op := WriteOp.upsertTournament t.for_db
      let ok := wr op
      (if ok then
        { cache with tournaments := insertA cache.tournaments t.tournament_id t }
      else cache, [(op, ok)])
    else (cache, [])
  let cache1 := step.1
  let tr1 := step.2
  match inp.participants t.tournament_id with
  | .error _ => (cache1, tr1, false)
  | .ok ps =>
    let fetched := buildParticipantsMap ps
    let sub := (findA cache1.participants t.tournament_id).getD []
    let res := processParticipants wr t.tournament_id fetched sub
    ({ cache1 with
        participants := insertA cache1.participants t.tournament_id res.1 },
      tr1 ++ res.2, true)

/-- The handler's tournament loop over the fetched tournament list. -/
def processTournaments (wr : WriteOp → Bool) (inp : CycleInput) :
    List Tournament → CachedState → CachedState × List (WriteOp × Bool) × Bool
  | [], cache => (cache, [], true)
  | t :: rest, cache =>
    let step := processTournament wr inp t cache
    if step.2.2 then
      let next := processTournaments wr inp rest step.1
      (next.1, step.2.1 ++ next.2.1, next.2.2)
    else
      (step.1, step.2.1, false)

/-- One full notification cycle of the `Watch` handler.  Order as in the
source: tournament query/parse (failure ⇒ return with nothing done), the
tournament loop (a participants failure inside ⇒ return keeping the loop's
effects), then the leaderboard, count and match-history queries (any
failure ⇒ return before any scalar write), their parses (leaderboard and
count failures ⇒ return; a match-history parse failure ⇒ `none`, kind
skipped), then the count diff/write, the leaderboard diff/replace-all, and
the last-match diff/insert; each cache field advances only on a successful
write. -/
def countStage (wr : WriteOp → Bool) (newCount : Nat) (c : CachedState) :
    CachedState × List (WriteOp × Bool) :=
  if c.count ≠ some newCount then
    let op := WriteOp.upsertCount { id := "singleton", count := toString newCount }
    let ok := wr op
    (if ok then { c with count := some newCount } else c, [(op, ok)])
  else (c, [])

/-- The leaderboard block: whole-collection comparison of the cached `Vec`
against the fetched `Vec`; on inequality, `Leaderboard::replace_all`
(delete-all then bulk insert; the insert is only reached when the delete
call succeeded), caching the fetched rows only when both calls succeeded. -/
def lbStage (wr : WriteOp → Bool) (newLb : List Leaderboard) (c : CachedState) :
    CachedState × List (WriteOp × Bool) :=
  if c.leaderboard ≠ some newLb then
    if wr .lbDeleteAll then
      let okI := wr (.lbInsertMany newLb)
      (if okI then { c with leaderboard := some newLb } else c,
        [(WriteOp.lbDeleteAll, true), (WriteOp.lbInsertMany newLb, okI)])
    else (c, [(WriteOp.lbDeleteAll, false)])
  else (c, [])

/-- The match-history block: skipped when the parse failed (`none`) or the
chain reported no last match (`some none`); otherwise scalar diff+insert. -/
def matchStage (wr : WriteOp → Bool) (mParsed : Option (Option MatchHistory))
    (c : CachedState) : CachedState × List (WriteOp × Bool) :=
  match mParsed with
  | none => (c, [])
  | some none => (c, [])
  | some (some m) =>
    if c.matches_ ≠ some m then
      let op := WriteOp.insertMatch m.for_db
      let ok := wr op
      (if ok then { c with matches_ := some m } else c, [(op, ok)])
    else (c, [])

def runCycle (inp : CycleInput) (wr : WriteOp → Bool) (cache : CachedState) :
    CachedState × List (WriteOp × Bool) :=
  match inp.tournaments with
  | .error _ => (cache, [])
  | .ok ts =>
    let loop := processTournaments wr inp ts cache
    let c1 := loop.1
    let tr1 := loop.2.1
    if !loop.2.2 then (c1, tr1) else
    match inp.leaderboard, inp.count, inp.matches_ with
    | .error _, _, _ => (c1, tr1)
    | _, .error _, _ => (c1, tr1)
    | _, _, .error _ => (c1, tr1)
    | .ok newLb, .ok newCount, .ok mParsed =>
      let stepC := countStage wr newCount c1
      let stepL := lbStage wr newLb stepC.1
      let stepM := matchStage wr mParsed stepL.1
      (stepM.1, tr1 ++ stepC.2 ++ stepL.2 ++ stepM.2)

/-! ## Structural lemmas about the tournament loop -/

theorem processParticipants_ops (wr : WriteOp → Bool) (tid : String) :
    ∀ (fetched sub : List (String × TournamentParticipant)),
    ∀ x ∈ (processParticipants wr tid fetched sub).2,
      ∃ p b, x = (WriteOp.upsertParticipant (TournamentParticipant.for_db p tid), b) := by
  intro fetched
  induction fetched with
  | nil => intro sub x hx; simp [processParticipants] at hx
  | cons hd rest ih =>
    obtain ⟨pid, p⟩ := hd
    intro sub x hx
    by_cases h : findA sub pid = some p
    · simp [processParticipants, h] at hx
      exact ih sub x hx
    · simp [processParticipants, h] at hx
      rcases hx with hx | hx
      · exact ⟨p, wr (WriteOp.upsertParticipant (p.for_db tid)), by rw [hx]⟩
      · exact ih _ x hx

theorem processTournament_scalars (wr : WriteOp → Bool) (inp : CycleInput)
    (t : Tournament) (cache : CachedState) :
    (processTournament wr inp t cache).1.count = cache.count ∧
    (processTournament wr inp t cache).1.leaderboard = cache.leaderboard ∧
    (processTournament wr inp t cache).1.matches_ = cache.matches_ := by
  by_cases h : findA cache.tournaments t.tournament_id = some t <;>
    cases hp : inp.participants t.tournament_id <;>
    by_cases hw : wr (WriteOp.upsertTournament t.for_db) <;>
    simp [processTournament, h, hp, hw]

theorem processTournament_ops (wr : WriteOp → Bool) (inp : CycleInput)
    (t : Tournament) (cache : CachedState) :
    ∀ x ∈ (processTournament wr inp t cache).2.1,
      (∃ d b, x = (WriteOp.upsertTournament d, b)) ∨
      (∃ q b, x = (WriteOp.upsertParticipant q, b)) := by
  intro x hx
  by_cases h : findA cache.tournaments t.tournament_id = some t <;>
    cases hp : inp.participants t.tournament_id <;>
    by_cases hw : wr (WriteOp.upsertTournament t.for_db) <;>
    simp [processTournament, h, hp, hw] at hx
  all_goals
    first
    | (rcases hx with hx | hx
       · exact Or.inl ⟨t.for_db, _, by rw [hx]⟩
       · obtain ⟨p, b, hpb⟩ := processParticipants_ops wr t.tournament_id _ _ x hx
         exact Or.inr ⟨p.for_db t.tournament_id, b, hpb⟩)
    | exact Or.inl ⟨t.for_db, _, by rw [hx]⟩
    | (obtain ⟨p, b, hpb⟩ := processParticipants_ops wr t.tournament_id _ _ x hx
       exact Or.inr ⟨p.for_db t.tournament_id, b, hpb⟩)

theorem processTournaments_scalars (wr : WriteOp → Bool) (inp : CycleInput) :
    ∀ (ts : List Tournament) (cache : CachedState),
    (processTournaments wr inp ts cache).1.count = cache.count ∧
    (processTournaments wr inp ts cache).1.leaderboard = cache.leaderboard ∧
    (processTournaments wr inp ts cache).1.matches_ = cache.matches_ := by
  intro ts
  induction ts with
  | nil => intro cache; simp [processTournaments]
  | cons t rest ih =>
    intro cache
    have hstep := processTournament_scalars wr inp t cache
    cases hcont : (processTournament wr inp t cache).2.2 with
    | false =>
      simp [processTournaments, hcont]
      exact hstep
    | true =>
      have ihr := ih (processTournament wr inp t cache).1
      simp [processTournaments, hcont]
      exact ⟨ihr.1.trans hstep.1, ihr.2.1.trans hstep.2.1, ihr.2.2.trans hstep.2.2⟩

theorem processTournaments_ops (wr : WriteOp → Bool) (inp : CycleInput) :
    ∀ (ts : List Tournament) (cache : CachedState),
    ∀ x ∈ (processTournaments wr inp ts cache).2.1,
      (∃ d b, x = (WriteOp.upsertTournament d, b)) ∨
      (∃ q b, x = (WriteOp.upsertParticipant q, b)) := by
  intro ts
  induction ts with
  | nil => intro cache x hx; simp [processTournaments] at hx
  | cons t rest ih =>
    intro cache x hx
    cases hcont : (processTournament wr inp t cache).2.2 with
    | false =>
      simp [processTournaments, hcont] at hx
      exact processTournament_ops wr inp t cache x hx
    | true =>
      simp [processTournaments, hcont] at hx
      rcases hx with hx | hx
      · exact processTournament_ops wr inp t cache x hx
      · exact ih (processTournament wr inp t cache).1 x hx

/-- The cache entry for one (tournament, participant) key: lookup in the
per-tournament sub-map (an absent sub-map reads as empty, as the source's
`entry(..).or_default()` view does). -/
def lookupPart (c : CachedState) (tid pid : String) : Option TournamentParticipant :=
  findA ((findA c.participants tid).getD []) pid

theorem processParticipants_find_change (wr : WriteOp → Bool) (tid : String) :
    ∀ (fetched sub : List (String × TournamentParticipant)) (pid : String),
    findA (processParticipants wr tid fetched sub).1 pid ≠ findA sub pid →
    ∃ p, findA (processParticipants wr tid fetched sub).1 pid = some p ∧
      (WriteOp.upsertParticipant (p.for_db tid), true) ∈
        (processParticipants wr tid fetched sub).2 := by
  intro fetched
  induction fetched with
  | nil => intro sub pid hch; simp [processParticipants] at hch
  | cons hd rest ih =>
    obtain ⟨pid', p'⟩ := hd
    intro sub pid hch
    by_cases h : findA sub pid' = some p'
    · simp only [processParticipants, h, ne_eq, not_true_eq_false, if_false] at hch ⊢
      exact ih sub pid hch
    · simp only [processParticipants, h, ne_eq, not_false_eq_true, if_true] at hch ⊢
      set ok := wr (WriteOp.upsertParticipant (p'.for_db tid)) with hok
      set sub1 := if ok then insertA sub pid' p' else sub with hsub1
      by_cases hmid : findA (processParticipants wr tid rest sub1).1 pid = findA sub1 pid
      · -- the tail did not change this key: the head write did
        rw [hmid] at hch ⊢
        have hne : sub1 ≠ sub → ok = true := by
          intro hs
          cases hok' : ok with
          | false => exact absurd (by rw [hsub1, hok']; rfl) hs
          | true => rfl
        by_cases hpid : pid' = pid
        · subst hpid
          cases hok' : ok with
          | false =>
            rw [hsub1, hok'] at hch
            simp at hch
          | true =>
            rw [hsub1, hok'] at hch ⊢
            simp only [if_true]
            exact ⟨p', findA_insertA_self sub pid' p', List.mem_cons_self _ _⟩
        · cases hok' : ok with
          | false =>
            rw [hsub1, hok'] at hch
            simp at hch
          | true =>
            rw [hsub1, hok'] at hch
            simp only [if_true] at hch
            rw [findA_insertA_ne sub pid' pid p' hpid] at hch
            simp at hch
      · obtain ⟨p, hp1, hp2⟩ := ih sub1 pid hmid
        exact ⟨p, hp1, List.mem_cons_of_mem _ hp2⟩

theorem processTournament_tournaments_change (wr : WriteOp → Bool) (inp : CycleInput)
    (t : Tournament) (cache : CachedState) (tid : String) :
    findA (processTournament wr inp t cache).1.tournaments tid ≠
      findA cache.tournaments tid →
    ∃ t', findA (processTournament wr inp t cache).1.tournaments tid = some t' ∧
      (WriteOp.upsertTournament (Tournament.for_db t'), true) ∈
        (processTournament wr inp t cache).2.1 := by
  intro hch
  by_cases hc : findA cache.tournaments t.tournament_id = some t
  · cases hp : inp.participants t.tournament_id <;>
      simp [processTournament, hc, hp] at hch
  · by_cases hw : wr (WriteOp.upsertTournament t.for_db)
    · by_cases htid : t.tournament_id = tid
      · subst htid
        cases hp : inp.participants t.tournament_id <;>
          simp [processTournament, hc, hp, hw, findA_insertA_self] at hch ⊢
      · cases hp : inp.participants t.tournament_id <;>
          simp [processTournament, hc, hp, hw,
            findA_insertA_ne cache.tournaments t.tournament_id tid t htid] at hch
    · cases hp : inp.participants t.tournament_id <;>
        simp [processTournament, hc, hp, hw] at hch

theorem processTournaments_tournaments_change (wr : WriteOp → Bool) (inp : CycleInput) :
    ∀ (ts : List Tournament) (cache : CachedState) (tid : String),
    findA (processTournaments wr inp ts cache).1.tournaments tid ≠
      findA cache.tournaments tid →
    ∃ t', findA (processTournaments wr inp ts cache).1.tournaments tid = some t' ∧
      (WriteOp.upsertTournament (Tournament.for_db t'), true) ∈
        (processTournaments wr inp ts cache).2.1 := by
  intro ts
  induction ts with
  | nil => intro cache tid hch; simp [processTournaments] at hch
  | cons t rest ih =>
    intro cache tid hch
    cases hcont : (processTournament wr inp t cache).2.2 with
    | false =>
      simp only [processTournaments, hcont, if_false] at hch ⊢
      exact processTournament_tournaments_change wr inp t cache tid hch
    | true =>
      simp only [processTournaments, hcont, if_true] at hch ⊢
      by_cases hmid : findA (processTournaments wr inp rest (processTournament wr inp t cache).1).1.tournaments tid =
          findA (processTournament wr inp t cache).1.tournaments tid
      · rw [hmid] at hch ⊢
        obtain ⟨t', h1, h2⟩ := processTournament_tournaments_change wr inp t cache tid hch
        exact ⟨t', h1, List.mem_append_left _ h2⟩
      · obtain ⟨t', h1, h2⟩ := ih (processTournament wr inp t cache).1 tid hmid
        exact ⟨t', h1, List.mem_append_right _ h2⟩

theorem processTournament_participants_change (wr : WriteOp → Bool) (inp : CycleInput)
    (t : Tournament) (cache : CachedState) (tid pid : String) :
    lookupPart (processTournament wr inp t cache).1 tid pid ≠ lookupPart cache tid pid →
    ∃ p, lookupPart (processTournament wr inp t cache).1 tid pid = some p ∧
      (WriteOp.upsertParticipant (TournamentParticipant.for_db p tid), true) ∈
        (processTournament wr inp t cache).2.1 := by
  intro hch
  by_cases htid : t.tournament_id = tid
  · subst htid
    cases hp : inp.participants t.tournament_id with
    | error e =>
      by_cases hc : findA cache.tournaments t.tournament_id = some t <;>
        by_cases hw : wr (WriteOp.upsertTournament t.for_db) <;>
        simp [processTournament, lookupPart, hc, hw, hp] at hch
    | ok ps =>
      by_cases hc : findA cache.tournaments t.tournament_id = some t <;>
        by_cases hw : wr (WriteOp.upsertTournament t.for_db) <;>
        simp only [processTournament, lookupPart, hc, hw, hp, ne_eq, not_true_eq_false,
          not_false_eq_true, if_true, if_false, ite_true, ite_false] at hch ⊢ <;>
        simp only [findA_insertA_self, Option.getD_some] at hch ⊢ <;>
        (obtain ⟨p, h1, h2⟩ := processParticipants_find_change wr t.tournament_id
          (buildParticipantsMap ps) _ pid hch
         exact ⟨p, h1, by simpa using h2⟩)
  · cases hp : inp.participants t.tournament_id with
    | error e =>
      by_cases hc : findA cache.tournaments t.tournament_id = some t <;>
        by_cases hw : wr (WriteOp.upsertTournament t.for_db) <;>
        simp [processTournament, lookupPart, hc, hw, hp] at hch
    | ok ps =>
      by_cases hc : findA cache.tournaments t.tournament_id = some t <;>
        by_cases hw : wr (WriteOp.upsertTournament t.for_db) <;>
        simp [processTournament, lookupPart, hc, hw, hp,
          findA_insertA_ne _ t.tournament_id tid _ htid] at hch

theorem processTournaments_participants_change (wr : WriteOp → Bool) (inp : CycleInput) :
    ∀ (ts : List Tournament) (cache : CachedState) (tid pid : String),
    lookupPart (processTournaments wr inp ts cache).1 tid pid ≠ lookupPart cache tid pid →
    ∃ p, lookupPart (processTournaments wr inp ts cache).1 tid pid = some p ∧
      (WriteOp.upsertParticipant (TournamentParticipant.for_db p tid), true) ∈
        (processTournaments wr inp ts cache).2.1 := by
  intro ts
  induction ts with
  | nil => intro cache tid pid hch; simp [processTournaments] at hch
  | cons t rest ih =>
    intro cache tid pid hch
    cases hcont : (processTournament wr inp t cache).2.2 with
    | false =>
      simp only [processTournaments, hcont, if_false] at hch ⊢
      exact processTournament_participants_change wr inp t cache tid pid hch
    | true =>
      simp only [processTournaments, hcont, if_true] at hch ⊢
      by_cases hmid : lookupPart (processTournaments wr inp rest (processTournament wr inp t cache).1).1 tid pid =
          lookupPart (processTournament wr inp t cache).1 tid pid
      · rw [hmid] at hch ⊢
        obtain ⟨p, h1, h2⟩ := processTournament_participants_change wr inp t cache tid pid hch
        exact ⟨p, h1, List.mem_append_left _ h2⟩
      · obtain ⟨p, h1, h2⟩ := ih (processTournament wr inp t cache).1 tid pid hmid
        exact ⟨p, h1, List.mem_append_right _ h2⟩

/-! ## Shape lemmas for `runCycle` and its stages -/

theorem runCycle_tournaments_error (inp : CycleInput) (wr : WriteOp → Bool)
    (cache : CachedState) (e : Unit) (h : inp.tournaments = .error e) :
    runCycle inp wr cache = (cache, []) := by
  simp [runCycle, h]

theorem runCycle_abort (inp : CycleInput) (wr : WriteOp → Bool) (cache : CachedState)
    (ts : List Tournament) (h : inp.tournaments = .ok ts)
    (hcont : (processTournaments wr inp ts cache).2.2 = false) :
    runCycle inp wr cache =
      ((processTournaments wr inp ts cache).1, (processTournaments wr inp ts cache).2.1) := by
  simp [runCycle, h, hcont]

theorem runCycle_scalar_query_error (inp : CycleInput) (wr : WriteOp → Bool)
    (cache : CachedState) (ts : List Tournament) (h : inp.tournaments = .ok ts)
    (hcont : (processTournaments wr inp ts cache).2.2 = true)
    (herr : (∃ e, inp.leaderboard = .error e) ∨ (∃ e, inp.count = .error e) ∨
      (∃ e, inp.matches_ = .error e)) :
    runCycle inp wr cache =
      ((processTournaments wr inp ts cache).1, (processTournaments wr inp ts cache).2.1) := by
  rcases herr with ⟨e, he⟩ | ⟨e, he⟩ | ⟨e, he⟩ <;>
    [cases hc : inp.count <;> cases hm : inp.matches_ <;> simp [runCycle, h, hcont, he, hc, hm];
     cases hl : inp.leaderboard <;> cases hm : inp.matches_ <;> simp [runCycle, h, hcont, he, hl, hm];
     cases hl : inp.leaderboard <;> cases hc : inp.count <;> simp [runCycle, h, hcont, he, hl, hc]]

theorem runCycle_ok (inp : CycleInput) (wr : WriteOp → Bool) (cache : CachedState)
    (ts : List Tournament) (newLb : List Leaderboard) (newCount : Nat)
    (mP : Option (Option MatchHistory))
    (h : inp.tournaments = .ok ts)
    (hcont : (processTournaments wr inp ts cache).2.2 = true)
    (hl : inp.leaderboard = .ok newLb) (hc : inp.count = .ok newCount)
    (hm : inp.matches_ = .ok mP) :
    runCycle inp wr cache =
      ((matchStage wr mP
          (lbStage wr newLb (countStage wr newCount (processTournaments wr inp ts cache).1).1).1).1,
        (processTournaments wr inp ts cache).2.1 ++
          (countStage wr newCount (processTournaments wr inp ts cache).1).2 ++
          (lbStage wr newLb (countStage wr newCount (processTournaments wr inp ts cache).1).1).2 ++
          (matchStage wr mP
            (lbStage wr newLb (countStage wr newCount (processTournaments wr inp ts cache).1).1).1).2) := by
  simp [runCycle, h, hcont, hl, hc, hm]

theorem countStage_other (wr : WriteOp → Bool) (n : Nat) (c : CachedState) :
    (countStage wr n c).1.leaderboard = c.leaderboard ∧
    (countStage wr n c).1.matches_ = c.matches_ ∧
    (countStage wr n c).1.tournaments = c.tournaments ∧
    (countStage wr n c).1.participants = c.participants := by
  by_cases h : c.count = some n <;>
    by_cases hw : wr (WriteOp.upsertCount { id := "singleton", count := toString n }) <;>
    simp [countStage, h, hw]

theorem countStage_count_change (wr : WriteOp → Bool) (n : Nat) (c : CachedState)
    (hch : (countStage wr n c).1.count ≠ c.count) :
    (countStage wr n c).1.count = some n ∧
    (WriteOp.upsertCount { id := "singleton", count := toString n }, true) ∈
      (countStage wr n c).2 := by
  by_cases h : c.count = some n <;>
    by_cases hw : wr (WriteOp.upsertCount { id := "singleton", count := toString n }) <;>
    simp [countStage, h, hw] at hch ⊢

theorem countStage_ops (wr : WriteOp → Bool) (n : Nat) (c : CachedState) :
    ∀ x ∈ (countStage wr n c).2,
      x = (WriteOp.upsertCount { id := "singleton", count := toString n },
        wr (WriteOp.upsertCount { id := "singleton", count := toString n })) := by
  intro x hx
  by_cases h : c.count = some n <;>
    simp [countStage, h] at hx
  exact hx

theorem lbStage_other (wr : WriteOp → Bool) (rows : List Leaderboard) (c : CachedState) :
    (lbStage wr rows c).1.count = c.count ∧
    (lbStage wr rows c).1.matches_ = c.matches_ ∧
    (lbStage wr rows c).1.tournaments = c.tournaments ∧
    (lbStage wr rows c).1.participants = c.participants := by
  by_cases h : c.leaderboard = some rows <;>
    by_cases hd : wr WriteOp.lbDeleteAll <;>
    by_cases hi : wr (WriteOp.lbInsertMany rows) <;>
    simp [lbStage, h, hd, hi]

theorem lbStage_lb_change (wr : WriteOp → Bool) (rows : List Leaderboard) (c : CachedState)
    (hch : (lbStage wr rows c).1.leaderboard ≠ c.leaderboard) :
    (lbStage wr rows c).1.leaderboard = some rows ∧
    (WriteOp.lbInsertMany rows, true) ∈ (lbStage wr rows c).2 := by
  by_cases h : c.leaderboard = some rows <;>
    by_cases hd : wr WriteOp.lbDeleteAll <;>
    by_cases hi : wr (WriteOp.lbInsertMany rows) <;>
    simp [lbStage, h, hd, hi] at hch ⊢

theorem lbStage_ops (wr : WriteOp → Bool) (rows : List Leaderboard) (c : CachedState) :
    ∀ x ∈ (lbStage wr rows c).2,
      x = (WriteOp.lbDeleteAll, true) ∨ x = (WriteOp.lbDeleteAll, false) ∨
      x = (WriteOp.lbInsertMany rows, wr (WriteOp.lbInsertMany rows)) := by
  intro x hx
  by_cases h : c.leaderboard = some rows <;>
    by_cases hd : wr WriteOp.lbDeleteAll <;>
    simp [lbStage, h, hd] at hx
  · rcases hx with hx | hx
    · exact Or.inl hx
    · exact Or.inr (Or.inr hx)
  · exact Or.inr (Or.inl hx)

theorem matchStage_other (wr : WriteOp → Bool) (mP : Option (Option MatchHistory))
    (c : CachedState) :
    (matchStage wr mP c).1.count = c.count ∧
    (matchStage wr mP c).1.leaderboard = c.leaderboard ∧
    (matchStage wr mP c).1.tournaments = c.tournaments ∧
    (matchStage wr mP c).1.participants = c.participants := by
  match mP with
  | none => simp [matchStage]
  | some none => simp [matchStage]
  | some (some m) =>
    by_cases h : c.matches_ = some m <;>
      by_cases hw : wr (WriteOp.insertMatch m.for_db) <;>
      simp [matchStage, h, hw]

theorem matchStage_match_change (wr : WriteOp → Bool) (mP : Option (Option MatchHistory))
    (c : CachedState) (hch : (matchStage wr mP c).1.matches_ ≠ c.matches_) :
    ∃ m, (matchStage wr mP c).1.matches_ = some m ∧
      (WriteOp.insertMatch (MatchHistory.for_db m), true) ∈ (matchStage wr mP c).2 := by
  match mP with
  | none => simp [matchStage] at hch
  | some none => simp [matchStage] at hch
  | some (some m) =>
    by_cases h : c.matches_ = some m <;>
      by_cases hw : wr (WriteOp.insertMatch m.for_db) <;>
      simp [matchStage, h, hw] at hch ⊢

theorem matchStage_ops (wr : WriteOp → Bool) (mP : Option (Option MatchHistory))
    (c : CachedState) :
    ∀ x ∈ (matchStage wr mP c).2, ∃ d b, x = (WriteOp.insertMatch d, b) := by
  intro x hx
  match mP with
  | none => simp [matchStage] at hx
  | some none => simp [matchStage] at hx
  | some (some m) =>
    by_cases h : c.matches_ = some m <;>
      simp [matchStage, h] at hx
    exact ⟨m.for_db, wr (WriteOp.insertMatch m.for_db), by rw [hx]⟩

theorem lookupPart_congr (c1 c2 : CachedState) (tid pid : String)
    (h : c1.participants = c2.participants) :
    lookupPart c1 tid pid = lookupPart c2 tid pid := by
  simp [lookupPart, h]

/-- The five cache-advance-implies-successful-write conjuncts, for the cycle
outcomes that stop right after the tournament loop. -/
theorem loop_result_advances (wr : WriteOp → Bool) (inp : CycleInput)
    (ts : List Tournament) (cache : CachedState) :
    ((processTournaments wr inp ts cache).1.count ≠ cache.count →
      ∃ n, (processTournaments wr inp ts cache).1.count = some n ∧
        (WriteOp.upsertCount { id := "singleton", count := toString n }, true) ∈
          (processTournaments wr inp ts cache).2.1) ∧
    ((processTournaments wr inp ts cache).1.leaderboard ≠ cache.leaderboard →
      ∃ rows, (processTournaments wr inp ts cache).1.leaderboard = some rows ∧
        (WriteOp.lbInsertMany rows, true) ∈ (processTournaments wr inp ts cache).2.1) ∧
    ((processTournaments wr inp ts cache).1.matches_ ≠ cache.matches_ →
      ∃ m, (processTournaments wr inp ts cache).1.matches_ = some m ∧
        (WriteOp.insertMatch (MatchHistory.for_db m), true) ∈
          (processTournaments wr inp ts cache).2.1) ∧
    (∀ tid, findA (processTournaments wr inp ts cache).1.tournaments tid ≠
        findA cache.tournaments tid →
      ∃ t, findA (processTournaments wr inp ts cache).1.tournaments tid = some t ∧
        (WriteOp.upsertTournament (Tournament.for_db t), true) ∈
          (processTournaments wr inp ts cache).2.1) ∧
    (∀ tid pid, lookupPart (processTournaments wr inp ts cache).1 tid pid ≠
        lookupPart cache tid pid →
      ∃ p, lookupPart (processTournaments wr inp ts cache).1 tid pid = some p ∧
        (WriteOp.upsertParticipant (TournamentParticipant.for_db p tid), true) ∈
          (processTournaments wr inp ts cache).2.1) := by
  have hs := processTournaments_scalars wr inp ts cache
  refine ⟨?_, ?_, ?_, ?_, ?_⟩
  · intro hch; exact absurd hs.1 hch
  · intro hch; exact absurd hs.2.1 hch
  · intro hch; exact absurd hs.2.2 hch
  · intro tid hch; exact processTournaments_tournaments_change wr inp ts cache tid hch
  · intro tid pid hch
    exact processTournaments_participants_change wr inp ts cache tid pid hch

/-- C2: in one `Watch` cycle, each cache entry (count, leaderboard, last
match, each tournament key, each participant key) is advanced only in the
branch where the corresponding external write returned success: whenever a
cache entry changed during the cycle, the trace contains the corresponding
write with a `true` (successful) outcome holding exactly the newly cached
value.  Contrapositively, a failed write leaves that cache entry exactly as
before the cycle. -/
theorem cache_advances_only_on_successful_write (inp : CycleInput) (wr : WriteOp → Bool)
    (cache : CachedState) :
    ((runCycle inp wr cache).1.count ≠ cache.count →
      ∃ n, (runCycle inp wr cache).1.count = some n ∧
        (WriteOp.upsertCount { id := "singleton", count := toString n }, true) ∈
          (runCycle inp wr cache).2) ∧
    ((runCycle inp wr cache).1.leaderboard ≠ cache.leaderboard →
      ∃ rows, (runCycle inp wr cache).1.leaderboard = some rows ∧
        (WriteOp.lbInsertMany rows, true) ∈ (runCycle inp wr cache).2) ∧
    ((runCycle inp wr cache).1.matches_ ≠ cache.matches_ →
      ∃ m, (runCycle inp wr cache).1.matches_ = some m ∧
        (WriteOp.insertMatch (MatchHistory.for_db m), true) ∈ (runCycle inp wr cache).2) ∧
    (∀ tid, findA (runCycle inp wr cache).1.tournaments tid ≠ findA cache.tournaments tid →
      ∃ t, findA (runCycle inp wr cache).1.tournaments tid = some t ∧
        (WriteOp.upsertTournament (Tournament.for_db t), true) ∈ (runCycle inp wr cache).2) ∧
    (∀ tid pid, lookupPart (runCycle inp wr cache).1 tid pid ≠ lookupPart cache tid pid →
      ∃ p, lookupPart (runCycle inp wr cache).1 tid pid = some p ∧
        (WriteOp.upsertParticipant (TournamentParticipant.for_db p tid), true) ∈
          (runCycle inp wr cache).2) := by
  cases ht : inp.tournaments with
  | error e =>
    rw [runCycle_tournaments_error inp wr cache e ht]
    simp [lookupPart]
  | ok ts =>
    cases hcont : (processTournaments wr inp ts cache).2.2 with
    | false =>
      rw [runCycle_abort inp wr cache ts ht hcont]
      exact loop_result_advances wr inp ts cache
    | true =>
      cases hl : inp.leaderboard with
      | error e =>
        rw [runCycle_scalar_query_error inp wr cache ts ht hcont (Or.inl ⟨e, hl⟩)]
        exact loop_result_advances wr inp ts cache
      | ok newLb =>
        cases hc : inp.count with
        | error e =>
          rw [runCycle_scalar_query_error inp wr cache ts ht hcont (Or.inr (Or.inl ⟨e, hc⟩))]
          exact loop_result_advances wr inp ts cache
        | ok newCount =>
          cases hm : inp.matches_ with
          | error e =>
            rw [runCycle_scalar_query_error inp wr cache ts ht hcont
              (Or.inr (Or.inr ⟨e, hm⟩))]
            exact loop_result_advances wr inp ts cache
          | ok mP =>
            rw [runCycle_ok inp wr cache ts newLb newCount mP ht hcont hl hc hm]
            have hs := processTournaments_scalars wr inp ts cache
            have hsc := countStage_other wr newCount (processTournaments wr inp ts cache).1
            have hsl := lbStage_other wr newLb
              (countStage wr newCount (processTournaments wr inp ts cache).1).1
            have hsm := matchStage_other wr mP
              (lbStage wr newLb (countStage wr newCount (processTournaments wr inp ts cache).1).1).1
            refine ⟨?_, ?_, ?_, ?_, ?_⟩
            · intro hch
              rw [hsm.1, hsl.1] at hch ⊢
              have h0 : (countStage wr newCount (processTournaments wr inp ts cache).1).1.count ≠
                  (processTournaments wr inp ts cache).1.count := by
                rw [hs.1]; exact hch
              obtain ⟨h1, h2⟩ := countStage_count_change wr newCount
                (processTournaments wr inp ts cache).1 h0
              exact ⟨newCount, h1,
                List.mem_append_left _ (List.mem_append_left _ (List.mem_append_right _ h2))⟩
            · intro hch
              rw [hsm.2.1] at hch ⊢
              have h0 : (lbStage wr newLb
                  (countStage wr newCount (processTournaments wr inp ts cache).1).1).1.leaderboard ≠
                  (countStage wr newCount (processTournaments wr inp ts cache).1).1.leaderboard := by
                rw [hsc.1, hs.2.1]; exact hch
              obtain ⟨h1, h2⟩ := lbStage_lb_change wr newLb
                (countStage wr newCount (processTournaments wr inp ts cache).1).1 h0
              exact ⟨newLb, h1, List.mem_append_left _ (List.mem_append_right _ h2)⟩
            · intro hch
              have h0 : (matchStage wr mP (lbStage wr newLb
                  (countStage wr newCount (processTournaments wr inp ts cache).1).1).1).1.matches_ ≠
                  (lbStage wr newLb
                    (countStage wr newCount (processTournaments wr inp ts cache).1).1).1.matches_ := by
                rw [hsl.2.1, hsc.2.1, hs.2.2]; exact hch
              obtain ⟨m, h1, h2⟩ := matchStage_match_change wr mP
                (lbStage wr newLb (countStage wr newCount (processTournaments wr inp ts cache).1).1).1 h0
              exact ⟨m, h1, List.mem_append_right _ h2⟩
            · intro tid hch
              rw [hsm.2.2.1, hsl.2.2.1, hsc.2.2.1] at hch ⊢
              obtain ⟨t, h1, h2⟩ :=
                processTournaments_tournaments_change wr inp ts cache tid hch
              exact ⟨t, h1, List.mem_append_left _ (List.mem_append_left _
                (List.mem_append_left _ h2))⟩
            · intro tid pid hch
              have e1 := lookupPart_congr _ _ tid pid hsm.2.2.2
              have e2 := lookupPart_congr _ _ tid pid hsl.2.2.2
              have e3 := lookupPart_congr _ _ tid pid hsc.2.2.2
              rw [e1, e2, e3] at hch ⊢
              obtain ⟨p, h1, h2⟩ :=
                processTournaments_participants_change wr inp ts cache tid pid hch
              exact ⟨p, h1, List.mem_append_left _ (List.mem_append_left _
                (List.mem_append_left _ h2))⟩

theorem countStage_attempts (wr : WriteOp → Bool) (n : Nat) (c : CachedState)
    (h : c.count ≠ some n) :
    (WriteOp.upsertCount { id := "singleton", count := toString n },
      wr (WriteOp.upsertCount { id := "singleton", count := toString n })) ∈
      (countStage wr n c).2 := by
  simp [countStage, h]

theorem countStage_no_write (wr : WriteOp → Bool) (n : Nat) (c : CachedState)
    (h : c.count = some n) : countStage wr n c = (c, []) := by
  simp [countStage, h]

theorem lbStage_attempts (wr : WriteOp → Bool) (rows : List Leaderboard) (c : CachedState)
    (h : c.leaderboard ≠ some rows) :
    (WriteOp.lbDeleteAll, wr WriteOp.lbDeleteAll) ∈ (lbStage wr rows c).2 := by
  by_cases hd : wr WriteOp.lbDeleteAll <;> simp [lbStage, h, hd]

theorem lbStage_no_write (wr : WriteOp → Bool) (rows : List Leaderboard) (c : CachedState)
    (h : c.leaderboard = some rows) : lbStage wr rows c = (c, []) := by
  simp [lbStage, h]

/-- C2 instantiated: with an empty cache, a successful fetch and a sink that
accepts every write, the first cycle advances the count cache, and the trace
carries the corresponding successful count upsert. -/
theorem cache_advances_only_on_successful_write_witness :
    ∃ n, (runCycle
        { tournaments := .ok [], participants := fun _ => .ok [],
          leaderboard := .ok [], count := .ok 5, matches_ := .ok (some none) }
        (fun _ => true) CachedState.initial).1.count = some n ∧
      (WriteOp.upsertCount { id := "singleton", count := toString n }, true) ∈
        (runCycle
          { tournaments := .ok [], participants := fun _ => .ok [],
            leaderboard := .ok [], count := .ok 5, matches_ := .ok (some none) }
          (fun _ => true) CachedState.initial).2 :=
  (cache_advances_only_on_successful_write
    { tournaments := .ok [], participants := fun _ => .ok [],
      leaderboard := .ok [], count := .ok 5, matches_ := .ok (some none) }
    (fun _ => true) CachedState.initial).1 (by decide)

/-- A concrete leaderboard row (elo 10, id `"a"`), used for concrete cycles. -/
def lbRowA : Leaderboard :=
  { id := "a", name := none, elo := 10, matches_ := 0, won := 0, lost := 0 }

/-- A concrete leaderboard row (elo 20, id `"b"`), used for concrete cycles. -/
def lbRowB : Leaderboard :=
  { id := "b", name := none, elo := 20, matches_ := 0, won := 0, lost := 0 }

/-- C4 counterexample: a cycle in which the matches query fails
(`matches_ = .error ()`) while the count query succeeds with `5` and the
leaderboard query succeeds with one row — both differing from the (empty)
cache — issues *no* write at all and leaves the cache untouched: the early
`return` on the matches query failure aborts the whole cycle before the
count and leaderboard blocks, contradicting the claim that only the matches
kind is skipped. -/
theorem matches_query_failure_aborts_cycle_cex :
    (runCycle
      { tournaments := .ok [], participants := fun _ => .ok [],
        leaderboard := .ok [lbRowA], count := .ok 5, matches_ := .error () }
      (fun _ => true) CachedState.initial) = (CachedState.initial, []) ∧
    CachedState.initial.count ≠ some 5 ∧
    CachedState.initial.leaderboard ≠ some [lbRowA] := by
  refine ⟨by rfl, by decide, by decide⟩

/-- C4 amended: a *matches query* failure does not merely skip the matches
kind — it aborts the whole cycle with an early `return`: no count,
leaderboard or match write is attempted (only tournament-loop writes that
already happened remain) and the scalar caches are untouched.  Only a
*matches parse* failure is tolerated per-kind: with `matches_ = .ok none`
the count and leaderboard diffs still run and their writes are still
attempted. -/
theorem matches_failure_semantics (inp : CycleInput) (wr : WriteOp → Bool)
    (cache : CachedState) :
    (inp.matches_ = .error () →
      (runCycle inp wr cache).1.count = cache.count ∧
      (runCycle inp wr cache).1.leaderboard = cache.leaderboard ∧
      (runCycle inp wr cache).1.matches_ = cache.matches_ ∧
      ∀ x ∈ (runCycle inp wr cache).2,
        (∃ d b, x = (WriteOp.upsertTournament d, b)) ∨
        (∃ q b, x = (WriteOp.upsertParticipant q, b))) ∧
    (∀ ts rows n, inp.matches_ = .ok none → inp.tournaments = .ok ts →
      (processTournaments wr inp ts cache).2.2 = true →
      inp.leaderboard = .ok rows → inp.count = .ok n →
      (cache.count ≠ some n →
        (WriteOp.upsertCount { id := "singleton", count := toString n },
          wr (WriteOp.upsertCount { id := "singleton", count := toString n })) ∈
          (runCycle inp wr cache).2) ∧
      (cache.leaderboard ≠ some rows →
        (WriteOp.lbDeleteAll, wr WriteOp.lbDeleteAll) ∈ (runCycle inp wr cache).2)) := by
  constructor
  · intro hm
    cases ht : inp.tournaments with
    | error e =>
      rw [runCycle_tournaments_error inp wr cache e ht]
      simp
    | ok ts =>
      have hres : runCycle inp wr cache =
          ((processTournaments wr inp ts cache).1,
            (processTournaments wr inp ts cache).2.1) := by
        cases hcont : (processTournaments wr inp ts cache).2.2 with
        | false => exact runCycle_abort inp wr cache ts ht hcont
        | true =>
          exact runCycle_scalar_query_error inp wr cache ts ht hcont
            (Or.inr (Or.inr ⟨(), hm⟩))
      rw [hres]
      have hs := processTournaments_scalars wr inp ts cache
      exact ⟨hs.1, hs.2.1, hs.2.2, processTournaments_ops wr inp ts cache⟩
  · intro ts rows n hm ht hcont hl hc
    rw [runCycle_ok inp wr cache ts rows n none ht hcont hl hc hm]
    have hs := processTournaments_scalars wr inp ts cache
    have hsc := countStage_other wr n (processTournaments wr inp ts cache).1
    constructor
    · intro hch
      have h0 : (processTournaments wr inp ts cache).1.count ≠ some n := by
        rw [hs.1]; exact hch
      exact List.mem_append_left _ (List.mem_append_left _ (List.mem_append_right _
        (countStage_attempts wr n (processTournaments wr inp ts cache).1 h0)))
    · intro hch
      have h0 : (countStage wr n (processTournaments wr inp ts cache).1).1.leaderboard ≠
          some rows := by
        rw [hsc.1, hs.2.1]; exact hch
      exact List.mem_append_left _ (List.mem_append_right _
        (lbStage_attempts wr rows (countStage wr n (processTournaments wr inp ts cache).1).1 h0))

theorem matches_failure_semantics_witness :
    ((runCycle
        { tournaments := .ok [], participants := fun _ => .ok [],
          leaderboard := .ok [lbRowA], count := .ok 5, matches_ := .ok none }
        (fun _ => true) CachedState.initial).2 =
      [(WriteOp.upsertCount { id := "singleton", count := "5" }, true),
       (WriteOp.lbDeleteAll, true), (WriteOp.lbInsertMany [lbRowA], true)]) ∧
    (WriteOp.upsertCount { id := "singleton", count := toString 5 },
      (fun (_ : WriteOp) => true) (WriteOp.upsertCount { id := "singleton", count := toString 5 })) ∈
      (runCycle
        { tournaments := .ok [], participants := fun _ => .ok [],
          leaderboard := .ok [lbRowA], count := .ok 5, matches_ := .ok none }
        (fun _ => true) CachedState.initial).2 ∧
    (WriteOp.lbDeleteAll, (fun (_ : WriteOp) => true) WriteOp.lbDeleteAll) ∈
      (runCycle
        { tournaments := .ok [], participants := fun _ => .ok [],
          leaderboard := .ok [lbRowA], count := .ok 5, matches_ := .ok none }
        (fun _ => true) CachedState.initial).2 := by
  have h := (matches_failure_semantics
    { tournaments := .ok [], participants := fun _ => .ok [],
      leaderboard := .ok [lbRowA], count := .ok 5, matches_ := .ok none }
    (fun _ => true) CachedState.initial).2 [] [lbRowA] 5 rfl rfl (by decide) rfl rfl
  exact ⟨by decide, h.1 (by decide), h.2 (by decide)⟩

/-- C3 counterexample: with the cached leaderboard `[a(10), b(20)]` and a
fetch returning the same two rows in the opposite order `[b(20), a(10)]`
(a permutation, so identical content keyed by id), the cycle classifies the
collections as different and issues the replace-all write — the source
compares the cached `Vec` and the fetched `Vec` positionally. -/
theorem leaderboard_reorder_triggers_write_cex :
    ([lbRowB, lbRowA] : List Leaderboard).Perm [lbRowA, lbRowB] ∧
    (runCycle
      { tournaments := .ok [], participants := fun _ => .ok [],
        leaderboard := .ok [lbRowB, lbRowA], count := .ok 0, matches_ := .ok (some none) }
      (fun _ => true)
      { count := some 0, leaderboard := some [lbRowA, lbRowB], matches_ := none,
        tournaments := [], participants := [] }).2 =
      [(WriteOp.lbDeleteAll, true), (WriteOp.lbInsertMany [lbRowB, lbRowA], true)] := by
  refine ⟨by decide, by rfl⟩

/-- C3 amended: the leaderboard diff is order-sensitive.  On a cycle that
reaches the scalar blocks, a leaderboard write (the delete-all call of
`replace_all`) is issued iff the fetched row list differs from the cached
row list as a plain list — equal content in a different order *is* treated
as changed and does trigger a replace-all write. -/
theorem leaderboard_diff_is_order_sensitive (inp : CycleInput) (wr : WriteOp → Bool)
    (cache : CachedState) (ts : List Tournament) (rows : List Leaderboard) (n : Nat)
    (mP : Option (Option MatchHistory))
    (ht : inp.tournaments = .ok ts)
    (hcont : (processTournaments wr inp ts cache).2.2 = true)
    (hl : inp.leaderboard = .ok rows) (hc : inp.count = .ok n)
    (hm : inp.matches_ = .ok mP) :
    (∃ b, (WriteOp.lbDeleteAll, b) ∈ (runCycle inp wr cache).2) ↔
      cache.leaderboard ≠ some rows := by
  rw [runCycle_ok inp wr cache ts rows n mP ht hcont hl hc hm]
  have hs := processTournaments_scalars wr inp ts cache
  have hsc := countStage_other wr n (processTournaments wr inp ts cache).1
  have heq : (countStage wr n (processTournaments wr inp ts cache).1).1.leaderboard =
      cache.leaderboard := by rw [hsc.1, hs.2.1]
  constructor
  · rintro ⟨b, hb⟩
    intro hcontra
    rw [lbStage_no_write wr rows _ (by rw [heq]; exact hcontra)] at hb
    simp only [List.append_nil, List.mem_append] at hb
    rcases hb with (hb | hb) | hb
    · rcases processTournaments_ops wr inp ts cache _ hb with ⟨d, b', hx⟩ | ⟨q, b', hx⟩ <;>
        simp at hx
    · have hx := countStage_ops wr n (processTournaments wr inp ts cache).1 _ hb
      simp at hx
    · obtain ⟨d, b', hx⟩ := matchStage_ops wr mP _ _ hb
      simp at hx
  · intro hne
    refine ⟨wr WriteOp.lbDeleteAll, ?_⟩
    exact List.mem_append_left _ (List.mem_append_right _
      (lbStage_attempts wr rows _ (by rw [heq]; exact hne)))

theorem leaderboard_diff_is_order_sensitive_witness :
    ((∃ b, (WriteOp.lbDeleteAll, b) ∈ (runCycle
        { tournaments := .ok [], participants := fun _ => .ok [],
          leaderboard := .ok [lbRowB, lbRowA], count := .ok 0, matches_ := .ok (some none) }
        (fun _ => true)
        { count := some 0, leaderboard := some [lbRowA, lbRowB], matches_ := none,
          tournaments := [], participants := [] }).2) ↔
      ({ count := some 0, leaderboard := some [lbRowA, lbRowB], matches_ := none,
          tournaments := [], participants := [] } : CachedState).leaderboard ≠
        some [lbRowB, lbRowA]) :=
  leaderboard_diff_is_order_sensitive
    { tournaments := .ok [], participants := fun _ => .ok [],
      leaderboard := .ok [lbRowB, lbRowA], count := .ok 0, matches_ := .ok (some none) }
    (fun _ => true)
    { count := some 0, leaderboard := some [lbRowA, lbRowB], matches_ := none,
      tournaments := [], participants := [] }
    [] [lbRowB, lbRowA] 0 (some none) rfl (by decide) rfl rfl rfl

/-- Recognizer for count-kind sink writes. -/
def isCountOp : WriteOp → Bool
  | .upsertCount _ => true
  | _ => false

/-- The count-kind writes of a trace. -/
def countOps (tr : List (WriteOp × Bool)) : List (WriteOp × Bool) :=
  tr.filter (fun x => isCountOp x.1)

theorem countOps_append (a b : List (WriteOp × Bool)) :
    countOps (a ++ b) = countOps a ++ countOps b := by
  simp [countOps]

theorem countOps_eq_nil (tr : List (WriteOp × Bool))
    (h : ∀ x ∈ tr, isCountOp x.1 = false) : countOps tr = [] := by
  induction tr with
  | nil => rfl
  | cons hd tl ih =>
    simp only [countOps, List.filter_cons, h hd (List.mem_cons_self hd tl)]
    exact ih fun x hx => h x (List.mem_cons_of_mem hd hx)

theorem countOps_loop_nil (wr : WriteOp → Bool) (inp : CycleInput)
    (ts : List Tournament) (cache : CachedState) :
    countOps (processTournaments wr inp ts cache).2.1 = [] := by
  refine countOps_eq_nil _ fun x hx => ?_
  rcases processTournaments_ops wr inp ts cache x hx with ⟨d, b, hx'⟩ | ⟨q, b, hx'⟩ <;>
    simp [hx', isCountOp]

theorem countOps_lbStage_nil (wr : WriteOp → Bool) (rows : List Leaderboard)
    (c : CachedState) : countOps (lbStage wr rows c).2 = [] := by
  refine countOps_eq_nil _ fun x hx => ?_
  rcases lbStage_ops wr rows c x hx with hx' | hx' | hx' <;> simp [hx', isCountOp]

theorem countOps_matchStage_nil (wr : WriteOp → Bool) (mP : Option (Option MatchHistory))
    (c : CachedState) : countOps (matchStage wr mP c).2 = [] := by
  refine countOps_eq_nil _ fun x hx => ?_
  obtain ⟨d, b, hx'⟩ := matchStage_ops wr mP c x hx
  simp [hx', isCountOp]

/-- When the cache already holds the fetched count, a cycle issues no
count-kind write at all. -/
theorem runCycle_no_count_write (inp : CycleInput) (wr : WriteOp → Bool)
    (cache : CachedState) (n : Nat) (hcached : cache.count = some n)
    (hc : inp.count = .ok n) : countOps (runCycle inp wr cache).2 = [] := by
  cases ht : inp.tournaments with
  | error e =>
    rw [runCycle_tournaments_error inp wr cache e ht]
    rfl
  | ok ts =>
    cases hcont : (processTournaments wr inp ts cache).2.2 with
    | false =>
      rw [runCycle_abort inp wr cache ts ht hcont]
      exact countOps_loop_nil wr inp ts cache
    | true =>
      cases hl : inp.leaderboard with
      | error e =>
        rw [runCycle_scalar_query_error inp wr cache ts ht hcont (Or.inl ⟨e, hl⟩)]
        exact countOps_loop_nil wr inp ts cache
      | ok rows =>
        cases hm : inp.matches_ with
        | error e =>
          rw [runCycle_scalar_query_error inp wr cache ts ht hcont (Or.inr (Or.inr ⟨e, hm⟩))]
          exact countOps_loop_nil wr inp ts cache
        | ok mP =>
          rw [runCycle_ok inp wr cache ts rows n mP ht hcont hl hc hm]
          have hc1 : (processTournaments wr inp ts cache).1.count = some n := by
            rw [(processTournaments_scalars wr inp ts cache).1]; exact hcached
          rw [countStage_no_write wr n _ hc1]
          simp only [countOps_append, countOps_loop_nil, countOps_lbStage_nil,
            countOps_matchStage_nil]
          rfl

/-- C7: on a cycle that reaches the scalar blocks with an empty count cache
and a fetched count `n` that the sink accepts, exactly one count write is
issued — an upsert of the singleton `gameCount` row carrying the decimal
string of `n` — and the cache then holds `n`; any subsequent cycle whose
count fetch again returns `n` issues no count-kind write. -/
theorem count_sync_scenario (inp : CycleInput) (wr : WriteOp → Bool)
    (cache : CachedState) (ts : List Tournament) (rows : List Leaderboard)
    (mP : Option (Option MatchHistory)) (n : Nat)
    (h0 : cache.count = none)
    (ht : inp.tournaments = .ok ts)
    (hcont : (processTournaments wr inp ts cache).2.2 = true)
    (hl : inp.leaderboard = .ok rows) (hc : inp.count = .ok n)
    (hm : inp.matches_ = .ok mP)
    (hw : wr (WriteOp.upsertCount { id := "singleton", count := toString n }) = true) :
    countOps (runCycle inp wr cache).2 =
      [(WriteOp.upsertCount { id := "singleton", count := toString n }, true)] ∧
    (runCycle inp wr cache).1.count = some n ∧
    (∀ (inp2 : CycleInput) (wr2 : WriteOp → Bool), inp2.count = .ok n →
      countOps (runCycle inp2 wr2 (runCycle inp wr cache).1).2 = []) := by
  rw [runCycle_ok inp wr cache ts rows n mP ht hcont hl hc hm]
  have hc1 : (processTournaments wr inp ts cache).1.count = none := by
    rw [(processTournaments_scalars wr inp ts cache).1]; exact h0
  have hstep : countStage wr n (processTournaments wr inp ts cache).1 =
      ({ (processTournaments wr inp ts cache).1 with count := some n },
        [(WriteOp.upsertCount { id := "singleton", count := toString n }, true)]) := by
    simp [countStage, hc1, hw]
  refine ⟨?_, ?_, ?_⟩
  · rw [hstep]
    rw [countOps_append, countOps_append, countOps_append]
    rw [countOps_loop_nil, countOps_lbStage_nil, countOps_matchStage_nil]
    simp [countOps, isCountOp]
  · have hml := (matchStage_other wr mP
      (lbStage wr rows (countStage wr n (processTournaments wr inp ts cache).1).1).1).1
    have hlb := (lbStage_other wr rows
      (countStage wr n (processTournaments wr inp ts cache).1).1).1
    rw [hml, hlb, hstep]
  · intro inp2 wr2 hc2
    have hml := (matchStage_other wr mP
      (lbStage wr rows (countStage wr n (processTournaments wr inp ts cache).1).1).1).1
    have hlb := (lbStage_other wr rows
      (countStage wr n (processTournaments wr inp ts cache).1).1).1
    refine runCycle_no_count_write inp2 wr2 _ n ?_ hc2
    rw [hml, hlb, hstep]

theorem count_sync_scenario_witness :
    countOps (runCycle
      { tournaments := .ok [], participants := fun _ => .ok [],
        leaderboard := .ok [], count := .ok 5, matches_ := .ok (some none) }
      (fun _ => true) CachedState.initial).2 =
      [(WriteOp.upsertCount { id := "singleton", count := toString 5 }, true)] ∧
    (runCycle
      { tournaments := .ok [], participants := fun _ => .ok [],
        leaderboard := .ok [], count := .ok 5, matches_ := .ok (some none) }
      (fun _ => true) CachedState.initial).1.count = some 5 ∧
    (∀ (inp2 : CycleInput) (wr2 : WriteOp → Bool), inp2.count = .ok 5 →
      countOps (runCycle inp2 wr2 (runCycle
        { tournaments := .ok [], participants := fun _ => .ok [],
          leaderboard := .ok [], count := .ok 5, matches_ := .ok (some none) }
        (fun _ => true) CachedState.initial).1).2 = []) :=
  count_sync_scenario
    { tournaments := .ok [], participants := fun _ => .ok [],
      leaderboard := .ok [], count := .ok 5, matches_ := .ok (some none) }
    (fun _ => true) CachedState.initial [] [] (some none) 5
    rfl rfl (by decide) rfl rfl rfl rfl

/-! ## Supabase sink model (`src/supabase.rs`, `src/models/leaderboard.rs`)

For `Leaderboard::replace_all` the sink is modelled as the row list of the
`leaderboard` table; each HTTP call's success is a `Bool` parameter, and the
model returns the call result, the resulting table contents, and the
sequence of HTTP calls issued. -/

/-- One HTTP call against the `leaderboard` table. -/
inductive LbCall where
  | deleteAll
  | insertMany (rows : List Leaderboard)
deriving DecidableEq, Repr

/-- Model of `SupabaseClient::delete_all::<Leaderboard>`
(`DELETE /rest/v1/leaderboard?id=neq.`): on HTTP success every row is
removed; on failure the call returns `Err` and the table is untouched. -/
def supabase_delete_all (ok : Bool) (sink : List Leaderboard) :
    Except String (List Leaderboard) :=
  if ok then .ok [] else .error "Failed to delete table"

/-- Model of `SupabaseClient::insert_many` on the `leaderboard` table
(`POST /rest/v1/leaderboard`, `Prefer: return=representation`). -/
def supabase_insert_many (ok : Bool) (rows sink : List Leaderboard) :
    Except String (List Leaderboard) :=
  if ok then .ok (sink ++ rows) else .error "Failed to insert records"

/-- Model of `Leaderboard::replace_all`:
`client.delete_all::<Self>().await?.insert_many(&records).await` — a
delete-all call, then (only if it succeeded) a bulk insert, with no
compensation of a partial failure. -/
def Leaderboard.replace_all (okDel okIns : Bool) (records sink : List Leaderboard) :
    Except String Unit × List Leaderboard × List LbCall :=
  match supabase_delete_all okDel sink with
  | .error e => (.error e, sink, [LbCall.deleteAll])
  | .ok sink1 =>
    match supabase_insert_many okIns records sink1 with
    | .error e => (.error e, sink1, [LbCall.deleteAll, LbCall.insertMany records])
    | .ok sink2 => (.ok (), sink2, [LbCall.deleteAll, LbCall.insertMany records])

/-- C8: `Leaderboard::replace_all` is exactly two sequential sink calls — a
delete of all rows followed by one bulk insert — and has no compensation:
when both succeed the table holds exactly the new records; when the delete
succeeds and the insert fails the call returns an error and the table is
left empty (the deleted rows are not restored); when the delete fails the
insert is never attempted. -/
theorem leaderboard_replace_all_two_calls_no_compensation
    (records sink : List Leaderboard) :
    Leaderboard.replace_all true true records sink =
      (.ok (), records, [LbCall.deleteAll, LbCall.insertMany records]) ∧
    Leaderboard.replace_all true false records sink =
      (.error "Failed to insert records", [], [LbCall.deleteAll, LbCall.insertMany records]) ∧
    (∀ okIns, Leaderboard.replace_all false okIns records sink =
      (.error "Failed to delete table", sink, [LbCall.deleteAll])) := by
  refine ⟨?_, ?_, fun okIns => ?_⟩ <;>
    simp [Leaderboard.replace_all, supabase_delete_all, supabase_insert_many]

/-! ## Participants decoder (`src/models/participants.rs`)

`AccountOwner` is an external `linera_base` identifier type and is modelled
as an opaque `String`.  The `postcard::from_bytes::<Participants>` library
deserializer is modelled as an abstract partial function
`List Nat → Option Participants`; the base64 `STANDARD` engine's decoder is
implemented concretely below (RFC 4648 alphabet, mandatory canonical
padding).  A panic raised by `.expect(..)` is the explicit
`PanicOr.panicked` outcome carrying the expect message. -/

/-- `models/participants.rs`: a Swiss-system player entry. -/
structure SwissPlayer where
  player_id : String
  score : Nat
  opponents : List String
deriving DecidableEq, Repr

/-- `models/participants.rs`: a single-elimination player entry. -/
structure SingleElimPlayer where
  player_id : String
  score : Nat
  opponents : List String
deriving DecidableEq, Repr

/-- `models/participants.rs`: Swiss participants. -/
structure SwissParticipants where
  players : List SwissPlayer
  max_players : Nat
deriving DecidableEq, Repr

/-- `models/participants.rs`: single-elimination participants. -/
structure SingleElimParticipants where
  players : List SingleElimPlayer
  max_players : Nat
deriving DecidableEq, Repr

/-- `models/participants.rs`: the `Participants` enum. -/
inductive Participants where
  | Swiss (p : SwissParticipants)
  | SingleElim (p : SingleElimParticipants)
deriving DecidableEq, Repr

/-- Value of one character of the standard base64 alphabet. -/
def b64Val (c : Char) : Option Nat :=
  if 'A' ≤ c ∧ c ≤ 'Z' then some (c.toNat - 65)
  else if 'a' ≤ c ∧ c ≤ 'z' then some (c.toNat - 97 + 26)
  else if '0' ≤ c ∧ c ≤ '9' then some (c.toNat - 48 + 52)
  else if c = '+' then some 62
  else if c = '/' then some 63
  else none

/-- Decode the final 4-character block, allowing one or two trailing `=`
padding characters and requiring the unused trailing bits to be zero
(the `STANDARD` engine rejects non-canonical padding). -/
def b64DecodeLast (a b c d : Char) : Option (List Nat) :=
  if c = '=' then
    if d = '=' then
      match b64Val a, b64Val b with
      | some va, some vb => if vb % 16 = 0 then some [va * 4 + vb / 16] else none
      | _, _ => none
    else none
  else if d = '=' then
    match b64Val a, b64Val b, b64Val c with
    | some va, some vb, some vc =>
      if vc % 4 = 0 then some [va * 4 + vb / 16, (vb % 16) * 16 + vc / 4] else none
    | _, _, _ => none
  else
    match b64Val a, b64Val b, b64Val c, b64Val d with
    | some va, some vb, some vc, some vd =>
      some [va * 4 + vb / 16, (vb % 16) * 16 + vc / 4, (vc % 4) * 64 + vd]
    | _, _, _, _ => none

/-- Decode a base64 character stream in 4-character blocks; any input whose
length is not a multiple of 4, or containing a character outside the
alphabet, or with padding anywhere but the final block, is rejected. -/
def b64DecodeGo : List Char → Option (List Nat)
  | [] => some []
  | a :: b :: c :: d :: rest =>
    if rest.isEmpty then b64DecodeLast a b c d
    else
      match b64Val a, b64Val b, b64Val c, b64Val d, b64DecodeGo rest with
      | some va, some vb, some vc, some vd, some tail =>
        some ([va * 4 + vb / 16, (vb % 16) * 16 + vc / 4, (vc % 4) * 64 + vd] ++ tail)
      | _, _, _, _, _ => none
  | _ => none

/-- Model of `general_purpose::STANDARD.decode`. -/
def base64_decode (s : String) : Option (List Nat) :=
  b64DecodeGo s.data

/-- A computation that either returns a value or panics with a message. -/
inductive PanicOr (α : Type) where
  | panicked (msg : String)
  | value (v : α)
deriving DecidableEq, Repr

/-- Model of `Participants::decode`: base64-decode the input
(`.expect("invalid base64 input")`), then postcard-deserialize the bytes
(`.expect("postcard deserialization failed")`); each `expect` turns a
library failure into a panic, and no error value is ever returned. -/
def Participants.decode (pc : List Nat → Option Participants) (encoded : String) :
    PanicOr Participants :=
  match base64_decode encoded with
  | none => .panicked "invalid base64 input"
  | some bytes =>
    match pc bytes with
    | none => .panicked "postcard deserialization failed"
    | some v => .value v

/-- C9: `Participants::decode` is partial at its public interface: an input
that is not valid base64 panics with "invalid base64 input"; a valid base64
input whose bytes the postcard deserializer rejects panics with "postcard
deserialization failed"; and a value is produced only when both stages
succeed — there is no error-return path. -/
theorem participants_decode_panics_on_malformed
    (pc : List Nat → Option Participants) (s : String) :
    (base64_decode s = none →
      Participants.decode pc s = .panicked "invalid base64 input") ∧
    (∀ bytes, base64_decode s = some bytes → pc bytes = none →
      Participants.decode pc s = .panicked "postcard deserialization failed") ∧
    (∀ v, Participants.decode pc s = .value v →
      ∃ bytes, base64_decode s = some bytes ∧ pc bytes = some v) := by
  refine ⟨?_, ?_, ?_⟩
  · intro h
    simp [Participants.decode, h]
  · intro bytes h hpc
    simp [Participants.decode, h, hpc]
  · intro v hv
    cases hb : base64_decode s with
    | none => simp [Participants.decode, hb] at hv
    | some bytes =>
      cases hpc : pc bytes with
      | none => simp [Participants.decode, hb, hpc] at hv
      | some w =>
        simp [Participants.decode, hb, hpc] at hv
        exact ⟨bytes, rfl, by rw [hpc, hv]⟩

theorem participants_decode_panics_on_malformed_witness :
    base64_decode "%%%%" = none ∧
    Participants.decode (fun _ => none) "%%%%" = .panicked "invalid base64 input" ∧
    base64_decode "AAAA" = some [0, 0, 0] ∧
    Participants.decode (fun _ => none) "AAAA" =
      .panicked "postcard deserialization failed" :=
  ⟨by decide,
   (participants_decode_panics_on_malformed (fun _ => none) "%%%%").1 (by decide),
   by decide,
   (participants_decode_panics_on_malformed (fun _ => none) "AAAA").2.1 [0, 0, 0]
     (by decide) rfl⟩

/-! ## Unsupported per-kind sink operations (`src/models/*.rs`)

Six trait methods `anyhow::bail!` immediately: they return an error for
every input and never reach the HTTP client.  Each model returns the
`Err` value together with the (empty) list of HTTP requests issued. -/

/-- `GameCount::insert_many`: bails unconditionally. -/
def GameCount.insert_many (records : List GameCount) : Except String Unit × List String :=
  (.error "insert_many not supported for GameCount", [])

/-- `GameCount::replace_all`: bails unconditionally. -/
def GameCount.replace_all (records : List GameCount) : Except String Unit × List String :=
  (.error "replace_all not supported for GameCount", [])

/-- `Leaderboard::replace`: bails unconditionally. -/
def Leaderboard.replace (record : Leaderboard) : Except String Unit × List String :=
  (.error "replace not supported for Leaderboard", [])

/-- `MatchHistoryDB::insert_many`: bails unconditionally. -/
def MatchHistoryDB.insert_many (records : List MatchHistoryDB) :
    Except String Unit × List String :=
  (.error "insert_many not supported for MatchHistory", [])

/-- `MatchHistoryDB::replace_all`: bails unconditionally. -/
def MatchHistoryDB.replace_all (records : List MatchHistoryDB) :
    Except String Unit × List String :=
  (.error "replace_all not supported for MatchHistory", [])

/-- `TournamentDB::replace_all`: bails unconditionally. -/
def TournamentDB.replace_all (records : List TournamentDB) :
    Except String Unit × List String :=
  (.error "replace_all not supported for tournaments", [])

/-- C10: the six sink operations the pipeline never uses fail
unconditionally and issue no HTTP request: for every input each returns
`Err` with its bail message and an empty request list. -/
theorem unsupported_sink_ops_always_fail :
    (∀ records : List GameCount, GameCount.insert_many records =
      (.error "insert_many not supported for GameCount", [])) ∧
    (∀ records : List GameCount, GameCount.replace_all records =
      (.error "replace_all not supported for GameCount", [])) ∧
    (∀ record : Leaderboard, Leaderboard.replace record =
      (.error "replace not supported for Leaderboard", [])) ∧
    (∀ records : List MatchHistoryDB, MatchHistoryDB.insert_many records =
      (.error "insert_many not supported for MatchHistory", [])) ∧
    (∀ records : List MatchHistoryDB, MatchHistoryDB.replace_all records =
      (.error "replace_all not supported for MatchHistory", [])) ∧
    (∀ records : List TournamentDB, TournamentDB.replace_all records =
      (.error "replace_all not supported for tournaments", [])) :=
  ⟨fun _ => rfl, fun _ => rfl, fun _ => rfl, fun _ => rfl, fun _ => rfl, fun _ => rfl⟩

/-! ## Exactness of the keyed diffs (tournaments, participants) -/

@[simp] theorem Tournament.for_db_tournament_id (t : Tournament) :
    (Tournament.for_db t).tournament_id = t.tournament_id := rfl

@[simp] theorem TournamentParticipant.for_db_id (p : TournamentParticipant) (tid : String) :
    (TournamentParticipant.for_db p tid).id = p.id := rfl

@[simp] theorem TournamentParticipant.for_db_tid (p : TournamentParticipant) (tid : String) :
    (TournamentParticipant.for_db p tid).tournament_id = tid := rfl

theorem mem_insertA {α : Type} (l : List (String × α)) (k : String) (v : α) (e : String × α)
    (h : e ∈ insertA l k v) : e ∈ l ∨ e = (k, v) := by
  induction l with
  | nil => simpa [insertA] using h
  | cons hd tl ih =>
    obtain ⟨k₀, v₀⟩ := hd
    by_cases hk : k₀ = k
    · subst hk
      simp [insertA] at h
      rcases h with h | h
      · exact Or.inr (by rw [h])
      · exact Or.inl (List.mem_cons_of_mem _ h)
    · simp [insertA, hk] at h
      rcases h with h | h
      · exact Or.inl (by rw [h]; exact List.mem_cons_self _ _)
      · rcases ih h with h' | h'
        · exact Or.inl (List.mem_cons_of_mem _ h')
        · exact Or.inr h'

theorem buildGo_keyed (ps : List TournamentParticipant) :
    ∀ m : List (String × TournamentParticipant),
    (∀ e ∈ m, (e.2).id = e.1) → ∀ e ∈ buildGo m ps, (e.2).id = e.1 := by
  induction ps with
  | nil => intro m hm e he; exact hm e he
  | cons p rest ih =>
    intro m hm e he
    refine ih (insertA m p.id p) ?_ e he
    intro e' he'
    rcases mem_insertA m p.id p e' he' with h | h
    · exact hm e' h
    · rw [h]

theorem buildParticipantsMap_keyed (ps : List TournamentParticipant) :
    ∀ e ∈ buildParticipantsMap ps, (e.2).id = e.1 :=
  buildGo_keyed ps [] (by intro e he; simp at he)

theorem buildGo_nodup (ps : List TournamentParticipant) :
    ∀ m : List (String × TournamentParticipant),
    (keysA m).Nodup → (keysA (buildGo m ps)).Nodup := by
  induction ps with
  | nil => intro m hm; exact hm
  | cons p rest ih =>
    intro m hm
    exact ih (insertA m p.id p) (nodup_keysA_insertA m p.id p hm)

theorem buildParticipantsMap_nodup (ps : List TournamentParticipant) :
    (keysA (buildParticipantsMap ps)).Nodup :=
  buildGo_nodup ps [] (by simp)

theorem processParticipants_op_ids (wr : WriteOp → Bool) (tid : String) :
    ∀ (fetched sub : List (String × TournamentParticipant)),
    (∀ e ∈ fetched, (e.2).id = e.1) →
    ∀ q b, (WriteOp.upsertParticipant q, b) ∈ (processParticipants wr tid fetched sub).2 →
      q.id ∈ keysA fetched := by
  intro fetched
  induction fetched with
  | nil => intro sub _ q b h; simp [processParticipants] at h
  | cons hd rest ih =>
    obtain ⟨pid', p'⟩ := hd
    intro sub hkeys q b h
    have hk' : p'.id = pid' := hkeys (pid', p') (List.mem_cons_self _ _)
    have hkeys' : ∀ e ∈ rest, (e.2).id = e.1 := fun e he =>
      hkeys e (List.mem_cons_of_mem _ he)
    by_cases hc : findA sub pid' = some p'
    · simp only [processParticipants, hc, ne_eq, not_true_eq_false, if_false] at h
      exact List.mem_cons_of_mem _ (ih sub hkeys' q b h)
    · simp only [processParticipants, hc, ne_eq, not_false_eq_true, if_true,
        List.mem_cons] at h
      rcases h with h | h
      · have : q = p'.for_db tid := congrArg Prod.fst h |> fun hq => by
          simpa using hq
        rw [this]
        simp [hk']
      · exact List.mem_cons_of_mem _ (ih _ hkeys' q b h)


theorem processParticipants_op_iff (wr : WriteOp → Bool) (tid : String) :
    ∀ (fetched sub : List (String × TournamentParticipant)) (pid : String),
    (keysA fetched).Nodup → (∀ e ∈ fetched, (e.2).id = e.1) →
    ((∃ b q, (WriteOp.upsertParticipant q, b) ∈ (processParticipants wr tid fetched sub).2 ∧
        q.id = pid) ↔
      (∃ p, findA fetched pid = some p ∧ findA sub pid ≠ some p)) := by
  intro fetched
  induction fetched with
  | nil =>
    intro sub pid _ _
    simp [processParticipants, findA]
  | cons hd rest ih =>
    obtain ⟨pid', p'⟩ := hd
    intro sub pid hnd hkeys
    have hk' : p'.id = pid' := hkeys (pid', p') (List.mem_cons_self _ _)
    have hkeys' : ∀ e ∈ rest, (e.2).id = e.1 := fun e he =>
      hkeys e (List.mem_cons_of_mem _ he)
    rw [keysA_cons] at hnd
    have hnotin : pid' ∉ keysA rest := (List.nodup_cons.mp hnd).1
    have hnd' : (keysA rest).Nodup := (List.nodup_cons.mp hnd).2
    by_cases hc : findA sub pid' = some p'
    · -- head entry unchanged: no write emitted for it
      simp only [processParticipants, hc, ne_eq, not_true_eq_false, if_false]
      by_cases hpid : pid' = pid
      · subst hpid
        constructor
        · rintro ⟨b, q, hmem, hqid⟩
          have hid := processParticipants_op_ids wr tid rest sub hkeys' q b hmem
          rw [hqid] at hid
          exact absurd hid hnotin
        · rintro ⟨p, hp1, hp2⟩
          have : some p' = some p := by simpa [findA] using hp1
          rw [← Option.some_inj.mp this] at hp2
          exact absurd hc hp2
      · rw [ih sub pid hnd' hkeys']
        constructor
        · rintro ⟨p, hp1, hp2⟩
          refine ⟨p, ?_, hp2⟩
          simpa [findA, hpid] using hp1
        · rintro ⟨p, hp1, hp2⟩
          simp only [findA, hpid, if_false] at hp1
          exact ⟨p, hp1, hp2⟩
    · -- head entry differs: its write is emitted first
      simp only [processParticipants, hc, ne_eq, not_false_eq_true, if_true, List.mem_cons]
      have hsub1 : findA (if wr (WriteOp.upsertParticipant (p'.for_db tid)) = true then
          insertA sub pid' p' else sub) pid = findA sub pid ∨ pid' = pid := by
        by_cases hpid : pid' = pid
        · exact Or.inr hpid
        · refine Or.inl ?_
          by_cases hok : wr (WriteOp.upsertParticipant (p'.for_db tid)) = true <;>
            simp [hok, findA_insertA_ne sub pid' pid p' hpid]
      by_cases hpid : pid' = pid
      · subst hpid
        constructor
        · intro _
          exact ⟨p', by simp [findA], hc⟩
        · intro _
          exact ⟨wr (WriteOp.upsertParticipant (p'.for_db tid)), p'.for_db tid,
            Or.inl rfl, by simp [hk']⟩
      · rcases hsub1 with hsub1 | hsub1
        · constructor
          · rintro ⟨b, q, hmem, hqid⟩
            rcases hmem with hmem | hmem
            · exfalso
              have hq : q = p'.for_db tid := by
                have := congrArg Prod.fst hmem
                simpa using this
              rw [hq] at hqid
              simp [hk'] at hqid
              exact hpid hqid
            · obtain ⟨p, hp1, hp2⟩ := (ih _ pid hnd' hkeys').mp ⟨b, q, hmem, hqid⟩
              rw [hsub1] at hp2
              refine ⟨p, ?_, hp2⟩
              simp only [findA, hpid, if_false]
              exact hp1
          · rintro ⟨p, hp1, hp2⟩
            simp only [findA, hpid, if_false] at hp1
            obtain ⟨b, q, hmem, hqid⟩ := (ih _ pid hnd' hkeys').mpr
              ⟨p, hp1, by rw [hsub1]; exact hp2⟩
            exact ⟨b, q, Or.inr hmem, hqid⟩
        · exact absurd hsub1 hpid

theorem processTournament_participants_field (wr : WriteOp → Bool) (inp : CycleInput)
    (t : Tournament) (cache : CachedState) (ps : List TournamentParticipant)
    (hp : inp.participants t.tournament_id = .ok ps) :
    (processTournament wr inp t cache).1.participants =
      insertA cache.participants t.tournament_id
        (processParticipants wr t.tournament_id (buildParticipantsMap ps)
          ((findA cache.participants t.tournament_id).getD [])).1 := by
  by_cases hc : findA cache.tournaments t.tournament_id = some t <;>
    by_cases hw : wr (WriteOp.upsertTournament t.for_db) <;>
    simp [processTournament, hc, hw, hp]


theorem processTournament_trace_error (wr : WriteOp → Bool) (inp : CycleInput)
    (t : Tournament) (cache : CachedState) (e : Unit)
    (hp : inp.participants t.tournament_id = .error e) :
    (processTournament wr inp t cache).2.1 =
      (if findA cache.tournaments t.tournament_id ≠ some t then
        [(WriteOp.upsertTournament t.for_db, wr (WriteOp.upsertTournament t.for_db))]
      else []) := by
  by_cases hc : findA cache.tournaments t.tournament_id = some t <;>
    by_cases hw : wr (WriteOp.upsertTournament t.for_db) <;>
    simp [processTournament, hc, hw, hp]

theorem processTournament_trace_ok (wr : WriteOp → Bool) (inp : CycleInput)
    (t : Tournament) (cache : CachedState) (ps : List TournamentParticipant)
    (hp : inp.participants t.tournament_id = .ok ps) :
    (processTournament wr inp t cache).2.1 =
      (if findA cache.tournaments t.tournament_id ≠ some t then
        [(WriteOp.upsertTournament t.for_db, wr (WriteOp.upsertTournament t.for_db))]
      else []) ++
      (processParticipants wr t.tournament_id (buildParticipantsMap ps)
        ((findA cache.participants t.tournament_id).getD [])).2 := by
  by_cases hc : findA cache.tournaments t.tournament_id = some t <;>
    by_cases hw : wr (WriteOp.upsertTournament t.for_db) <;>
    simp [processTournament, hc, hw, hp]

theorem mem_tournament_head_iff (wr : WriteOp → Bool) (t : Tournament)
    (cache : CachedState) (tid : String) :
    (∃ b q, (WriteOp.upsertTournament q, b) ∈
        (if findA cache.tournaments t.tournament_id ≠ some t then
          [(WriteOp.upsertTournament t.for_db, wr (WriteOp.upsertTournament t.for_db))]
        else []) ∧ q.tournament_id = tid) ↔
      (t.tournament_id = tid ∧ findA cache.tournaments t.tournament_id ≠ some t) := by
  by_cases hc : findA cache.tournaments t.tournament_id = some t
  · rw [if_neg (by simpa using hc)]
    simp [hc]
  · rw [if_pos hc]
    simp only [List.mem_singleton, ne_eq, hc, not_false_eq_true, and_true]
    constructor
    · rintro ⟨b, q, hmem, hqid⟩
      have hq : q = t.for_db := by
        have := congrArg Prod.fst hmem
        simpa using this
      rw [hq] at hqid
      simpa using hqid
    · intro htid
      exact ⟨wr (WriteOp.upsertTournament t.for_db), t.for_db, rfl, by simpa using htid⟩

theorem no_tournament_op_in_participants (wr : WriteOp → Bool) (tid : String)
    (fetched sub : List (String × TournamentParticipant)) (q : TournamentDB) (b : Bool)
    (h : (WriteOp.upsertTournament q, b) ∈ (processParticipants wr tid fetched sub).2) :
    False := by
  obtain ⟨p, b', hx⟩ := processParticipants_ops wr tid fetched sub _ h
  simp at hx

theorem no_participant_op_in_head (wr : WriteOp → Bool) (t : Tournament)
    (cache : CachedState) (q : TournamentParticipantDB) (b : Bool)
    (h : (WriteOp.upsertParticipant q, b) ∈
      (if findA cache.tournaments t.tournament_id ≠ some t then
        [(WriteOp.upsertTournament t.for_db, wr (WriteOp.upsertTournament t.for_db))]
      else [])) : False := by
  by_cases hc : findA cache.tournaments t.tournament_id = some t
  · rw [if_neg (by simpa using hc)] at h
    simp at h
  · rw [if_pos hc] at h
    rw [List.mem_singleton] at h
    have := congrArg Prod.fst h
    simp at this

theorem processTournament_tournament_op_iff (wr : WriteOp → Bool) (inp : CycleInput)
    (t : Tournament) (cache : CachedState) (tid : String) :
    (∃ b q, (WriteOp.upsertTournament q, b) ∈ (processTournament wr inp t cache).2.1 ∧
        q.tournament_id = tid) ↔
      (t.tournament_id = tid ∧ findA cache.tournaments t.tournament_id ≠ some t) := by
  cases hp : inp.participants t.tournament_id with
  | error e =>
    rw [processTournament_trace_error wr inp t cache e hp]
    exact mem_tournament_head_iff wr t cache tid
  | ok ps =>
    rw [processTournament_trace_ok wr inp t cache ps hp]
    rw [← mem_tournament_head_iff wr t cache tid]
    constructor
    · rintro ⟨b, q, hmem, hqid⟩
      rw [List.mem_append] at hmem
      rcases hmem with hmem | hmem
      · exact ⟨b, q, hmem, hqid⟩
      · exact absurd hmem (fun h => no_tournament_op_in_participants wr _ _ _ q b h)
    · rintro ⟨b, q, hmem, hqid⟩
      exact ⟨b, q, List.mem_append_left _ hmem, hqid⟩

theorem processTournament_participant_op_iff (wr : WriteOp → Bool) (inp : CycleInput)
    (t : Tournament) (cache : CachedState) (tid pid : String) :
    (∃ b q, (WriteOp.upsertParticipant q, b) ∈ (processTournament wr inp t cache).2.1 ∧
        q.tournament_id = tid ∧ q.id = pid) ↔
      (t.tournament_id = tid ∧ ∃ ps, inp.participants t.tournament_id = .ok ps ∧
        ∃ p, findA (buildParticipantsMap ps) pid = some p ∧
          findA ((findA cache.participants t.tournament_id).getD []) pid ≠ some p) := by
  cases hp : inp.participants t.tournament_id with
  | error e =>
    rw [processTournament_trace_error wr inp t cache e hp]
    constructor
    · rintro ⟨b, q, hmem, _⟩
      exact absurd hmem (fun h => no_participant_op_in_head wr t cache q b h)
    · rintro ⟨_, ps, hps, _⟩
      simp at hps
  | ok ps =>
    rw [processTournament_trace_ok wr inp t cache ps hp]
    by_cases htid : t.tournament_id = tid
    · subst htid
      constructor
      · rintro ⟨b, q, hmem, hqid, hqpid⟩
        rw [List.mem_append] at hmem
        rcases hmem with hmem | hmem
        · exact absurd hmem (fun h => no_participant_op_in_head wr t cache q b h)
        · refine ⟨rfl, ps, rfl, ?_⟩
          exact (processParticipants_op_iff wr t.tournament_id (buildParticipantsMap ps)
            _ pid (buildParticipantsMap_nodup ps) (buildParticipantsMap_keyed ps)).mp
            ⟨b, q, hmem, hqpid⟩
      · rintro ⟨_, ps', hps', p, hp1, hp2⟩
        have hpe : ps = ps' := by simpa using hps'
        subst hpe
        obtain ⟨b, q, hmem, hqpid⟩ :=
          (processParticipants_op_iff wr t.tournament_id (buildParticipantsMap ps)
            _ pid (buildParticipantsMap_nodup ps) (buildParticipantsMap_keyed ps)).mpr
          ⟨p, hp1, hp2⟩
        obtain ⟨p', b', hshape⟩ := processParticipants_ops wr t.tournament_id _ _ _ hmem
        have hq : q = p'.for_db t.tournament_id := by
          have := congrArg Prod.fst hshape
          simpa using this
        refine ⟨b, q, List.mem_append_right _ hmem, ?_, hqpid⟩
        rw [hq]
        simp
    · constructor
      · rintro ⟨b, q, hmem, hqid, hqpid⟩
        exfalso
        rw [List.mem_append] at hmem
        rcases hmem with hmem | hmem
        · exact no_participant_op_in_head wr t cache q b hmem
        · obtain ⟨p', b', hshape⟩ := processParticipants_ops wr t.tournament_id _ _ _ hmem
          have hq : q = p'.for_db t.tournament_id := by
            have := congrArg Prod.fst hshape
            simpa using this
          rw [hq] at hqid
          simp at hqid
          exact htid hqid
      · rintro ⟨h, _⟩
        exact absurd h htid

theorem processTournament_tournaments_other (wr : WriteOp → Bool) (inp : CycleInput)
    (t : Tournament) (cache : CachedState) (tid : String)
    (htid : t.tournament_id ≠ tid) :
    findA (processTournament wr inp t cache).1.tournaments tid =
      findA cache.tournaments tid := by
  by_cases hc : findA cache.tournaments t.tournament_id = some t <;>
    cases hp : inp.participants t.tournament_id <;>
    by_cases hw : wr (WriteOp.upsertTournament t.for_db) <;>
    simp [processTournament, hc, hp, hw, findA_insertA_ne cache.tournaments
      t.tournament_id tid t htid]

theorem processTournament_participants_other (wr : WriteOp → Bool) (inp : CycleInput)
    (t : Tournament) (cache : CachedState) (tid : String)
    (htid : t.tournament_id ≠ tid) :
    findA (processTournament wr inp t cache).1.participants tid =
      findA cache.participants tid := by
  by_cases hc : findA cache.tournaments t.tournament_id = some t <;>
    cases hp : inp.participants t.tournament_id <;>
    by_cases hw : wr (WriteOp.upsertTournament t.for_db) <;>
    simp [processTournament, hc, hp, hw, findA_insertA_ne cache.participants
      t.tournament_id tid _ htid]

theorem processTournament_cont (wr : WriteOp → Bool) (inp : CycleInput)
    (t : Tournament) (cache : CachedState) (ps : List TournamentParticipant)
    (hp : inp.participants t.tournament_id = .ok ps) :
    (processTournament wr inp t cache).2.2 = true := by
  by_cases hc : findA cache.tournaments t.tournament_id = some t <;>
    by_cases hw : wr (WriteOp.upsertTournament t.for_db) <;>
    simp [processTournament, hc, hw, hp]

theorem processTournaments_cont (wr : WriteOp → Bool) (inp : CycleInput) :
    ∀ (ts : List Tournament) (cache : CachedState),
    (∀ t ∈ ts, ∃ ps, inp.participants t.tournament_id = .ok ps) →
    (processTournaments wr inp ts cache).2.2 = true := by
  intro ts
  induction ts with
  | nil => intro cache _; rfl
  | cons t rest ih =>
    intro cache hok
    obtain ⟨ps, hp⟩ := hok t (List.mem_cons_self _ _)
    have hcont := processTournament_cont wr inp t cache ps hp
    simp only [processTournaments, hcont, if_true]
    exact ih (processTournament wr inp t cache).1
      fun t' ht' => hok t' (List.mem_cons_of_mem _ ht')

theorem tournament_op_mem_append (A B : List (WriteOp × Bool)) (P : TournamentDB → Prop) :
    (∃ b q, (WriteOp.upsertTournament q, b) ∈ A ++ B ∧ P q) ↔
      ((∃ b q, (WriteOp.upsertTournament q, b) ∈ A ∧ P q) ∨
       (∃ b q, (WriteOp.upsertTournament q, b) ∈ B ∧ P q)) := by
  constructor
  · rintro ⟨b, q, hmem, hP⟩
    rcases List.mem_append.mp hmem with h | h
    · exact Or.inl ⟨b, q, h, hP⟩
    · exact Or.inr ⟨b, q, h, hP⟩
  · rintro (⟨b, q, h, hP⟩ | ⟨b, q, h, hP⟩)
    · exact ⟨b, q, List.mem_append_left _ h, hP⟩
    · exact ⟨b, q, List.mem_append_right _ h, hP⟩

theorem participant_op_mem_append (A B : List (WriteOp × Bool))
    (P : TournamentParticipantDB → Prop) :
    (∃ b q, (WriteOp.upsertParticipant q, b) ∈ A ++ B ∧ P q) ↔
      ((∃ b q, (WriteOp.upsertParticipant q, b) ∈ A ∧ P q) ∨
       (∃ b q, (WriteOp.upsertParticipant q, b) ∈ B ∧ P q)) := by
  constructor
  · rintro ⟨b, q, hmem, hP⟩
    rcases List.mem_append.mp hmem with h | h
    · exact Or.inl ⟨b, q, h, hP⟩
    · exact Or.inr ⟨b, q, h, hP⟩
  · rintro (⟨b, q, h, hP⟩ | ⟨b, q, h, hP⟩)
    · exact ⟨b, q, List.mem_append_left _ h, hP⟩
    · exact ⟨b, q, List.mem_append_right _ h, hP⟩

theorem processTournaments_tournament_write_iff (wr : WriteOp → Bool) (inp : CycleInput) :
    ∀ (ts : List Tournament) (cache : CachedState) (tid : String),
    (ts.map Tournament.tournament_id).Nodup →
    (∀ t ∈ ts, ∃ ps, inp.participants t.tournament_id = .ok ps) →
    ((∃ b q, (WriteOp.upsertTournament q, b) ∈ (processTournaments wr inp ts cache).2.1 ∧
        q.tournament_id = tid) ↔
      (∃ t, t ∈ ts ∧ t.tournament_id = tid ∧ findA cache.tournaments tid ≠ some t)) := by
  intro ts
  induction ts with
  | nil =>
    intro cache tid _ _
    simp [processTournaments]
  | cons t rest ih =>
    intro cache tid hnd hok
    obtain ⟨ps, hp⟩ := hok t (List.mem_cons_self _ _)
    have hok' : ∀ t' ∈ rest, ∃ ps', inp.participants t'.tournament_id = .ok ps' :=
      fun t' ht' => hok t' (List.mem_cons_of_mem _ ht')
    rw [List.map_cons, List.nodup_cons] at hnd
    have hcont := processTournament_cont wr inp t cache ps hp
    simp only [processTournaments, hcont, if_true]
    rw [tournament_op_mem_append]
    rw [processTournament_tournament_op_iff wr inp t cache tid]
    rw [ih (processTournament wr inp t cache).1 tid hnd.2 hok']
    by_cases htid : t.tournament_id = tid
    · constructor
      · rintro (⟨_, hc⟩ | ⟨t', ht', htid', hc⟩)
        · exact ⟨t, List.mem_cons_self _ _, htid, by rw [← htid]; exact hc⟩
        · exfalso
          apply hnd.1
          rw [htid, ← htid']
          exact List.mem_map_of_mem Tournament.tournament_id ht'
      · rintro ⟨t', ht', htid', hc⟩
        rcases List.mem_cons.mp ht' with h | h
        · subst h
          exact Or.inl ⟨htid, by rw [htid]; exact hc⟩
        · exfalso
          apply hnd.1
          rw [htid, ← htid']
          exact List.mem_map_of_mem Tournament.tournament_id h
    · constructor
      · rintro (⟨h, _⟩ | ⟨t', ht', htid', hc⟩)
        · exact absurd h htid
        · rw [processTournament_tournaments_other wr inp t cache tid htid] at hc
          exact ⟨t', List.mem_cons_of_mem _ ht', htid', hc⟩
      · rintro ⟨t', ht', htid', hc⟩
        rcases List.mem_cons.mp ht' with h | h
        · subst h
          exact absurd htid' htid
        · refine Or.inr ⟨t', h, htid', ?_⟩
          rw [processTournament_tournaments_other wr inp t cache tid htid]
          exact hc

theorem processTournaments_participant_write_iff (wr : WriteOp → Bool) (inp : CycleInput) :
    ∀ (ts : List Tournament) (cache : CachedState) (tid pid : String),
    (ts.map Tournament.tournament_id).Nodup →
    (∀ t ∈ ts, ∃ ps, inp.participants t.tournament_id = .ok ps) →
    ((∃ b q, (WriteOp.upsertParticipant q, b) ∈ (processTournaments wr inp ts cache).2.1 ∧
        q.tournament_id = tid ∧ q.id = pid) ↔
      (∃ t, t ∈ ts ∧ t.tournament_id = tid ∧
        ∃ ps, inp.participants tid = .ok ps ∧
          ∃ p, findA (buildParticipantsMap ps) pid = some p ∧
            findA ((findA cache.participants tid).getD []) pid ≠ some p)) := by
  intro ts
  induction ts with
  | nil =>
    intro cache tid pid _ _
    simp [processTournaments]
  | cons t rest ih =>
    intro cache tid pid hnd hok
    obtain ⟨ps, hp⟩ := hok t (List.mem_cons_self _ _)
    have hok' : ∀ t' ∈ rest, ∃ ps', inp.participants t'.tournament_id = .ok ps' :=
      fun t' ht' => hok t' (List.mem_cons_of_mem _ ht')
    rw [List.map_cons, List.nodup_cons] at hnd
    have hcont := processTournament_cont wr inp t cache ps hp
    simp only [processTournaments, hcont, if_true]
    rw [participant_op_mem_append]
    rw [processTournament_participant_op_iff wr inp t cache tid pid]
    rw [ih (processTournament wr inp t cache).1 tid pid hnd.2 hok']
    by_cases htid : t.tournament_id = tid
    · constructor
      · rintro (⟨_, hrest⟩ | ⟨t', ht', htid', hrest⟩)
        · exact ⟨t, List.mem_cons_self _ _, htid, by rw [← htid]; exact hrest⟩
        · exfalso
          apply hnd.1
          rw [htid, ← htid']
          exact List.mem_map_of_mem Tournament.tournament_id ht'
      · rintro ⟨t', ht', htid', hrest⟩
        rcases List.mem_cons.mp ht' with h | h
        · subst h
          exact Or.inl ⟨htid, by rw [htid]; exact hrest⟩
        · exfalso
          apply hnd.1
          rw [htid, ← htid']
          exact List.mem_map_of_mem Tournament.tournament_id h
    · rw [processTournament_participants_other wr inp t cache tid htid]
      constructor
      · rintro (⟨h, _⟩ | ⟨t', ht', htid', hrest⟩)
        · exact absurd h htid
        · exact ⟨t', List.mem_cons_of_mem _ ht', htid', hrest⟩
      · rintro ⟨t', ht', htid', hrest⟩
        rcases List.mem_cons.mp ht' with h | h
        · subst h
          exact absurd htid' htid
        · exact Or.inr ⟨t', h, htid', hrest⟩

theorem runCycle_keyed_mem (inp : CycleInput) (wr : WriteOp → Bool) (cache : CachedState)
    (ts : List Tournament) (ht : inp.tournaments = .ok ts)
    (hcont : (processTournaments wr inp ts cache).2.2 = true) (x : WriteOp × Bool)
    (hx : (∃ d b, x = (WriteOp.upsertTournament d, b)) ∨
      (∃ q b, x = (WriteOp.upsertParticipant q, b))) :
    (x ∈ (runCycle inp wr cache).2 ↔ x ∈ (processTournaments wr inp ts cache).2.1) := by
  cases hl : inp.leaderboard with
  | error e =>
    rw [runCycle_scalar_query_error inp wr cache ts ht hcont (Or.inl ⟨e, hl⟩)]
  | ok newLb =>
    cases hc : inp.count with
    | error e =>
      rw [runCycle_scalar_query_error inp wr cache ts ht hcont (Or.inr (Or.inl ⟨e, hc⟩))]
    | ok newCount =>
      cases hm : inp.matches_ with
      | error e =>
        rw [runCycle_scalar_query_error inp wr cache ts ht hcont (Or.inr (Or.inr ⟨e, hm⟩))]
      | ok mP =>
        rw [runCycle_ok inp wr cache ts newLb newCount mP ht hcont hl hc hm]
        constructor
        · intro hmem
          simp only [List.mem_append] at hmem
          rcases hmem with ((h | h) | h) | h
          · exact h
          · exfalso
            have hop := countStage_ops wr newCount _ x h
            rcases hx with ⟨d, b, hxe⟩ | ⟨q, b, hxe⟩ <;> rw [hxe] at hop <;> simp at hop
          · exfalso
            rcases lbStage_ops wr newLb _ x h with hop | hop | hop <;>
              rcases hx with ⟨d, b, hxe⟩ | ⟨q, b, hxe⟩ <;> rw [hxe] at hop <;> simp at hop
          · exfalso
            obtain ⟨d', b', hop⟩ := matchStage_ops wr mP _ x h
            rcases hx with ⟨d, b, hxe⟩ | ⟨q, b, hxe⟩ <;> rw [hxe] at hop <;> simp at hop
        · intro hmem
          exact List.mem_append_left _ (List.mem_append_left _ (List.mem_append_left _ hmem))

/-- C6: on a cycle whose tournament fetch parsed to `ts` (with pairwise
distinct tournament ids) and whose participant queries all succeed, the
keyed-map kinds are written exactly minimally: a tournament upsert keyed
`tid` is issued iff `tid` is fetched and its value is new or different from
the cache, and a participant upsert keyed `(tid, pid)` is issued iff `pid`
appears in the participant fetch of fetched tournament `tid` with a value
new or different from the per-tournament cache sub-map.  Keys whose cached
value equals the fetched value produce no write, and keys absent from the
fetch are not written (and no operation of the cycle deletes tournament or
participant rows — `WriteOp` has no such constructor). -/
theorem keyed_diff_minimality (inp : CycleInput) (wr : WriteOp → Bool)
    (cache : CachedState) (ts : List Tournament)
    (ht : inp.tournaments = .ok ts)
    (hnd : (ts.map Tournament.tournament_id).Nodup)
    (hok : ∀ t ∈ ts, ∃ ps, inp.participants t.tournament_id = .ok ps) :
    (∀ tid, (∃ b q, (WriteOp.upsertTournament q, b) ∈ (runCycle inp wr cache).2 ∧
        q.tournament_id = tid) ↔
      (∃ t, t ∈ ts ∧ t.tournament_id = tid ∧ findA cache.tournaments tid ≠ some t)) ∧
    (∀ tid pid, (∃ b q, (WriteOp.upsertParticipant q, b) ∈ (runCycle inp wr cache).2 ∧
        q.tournament_id = tid ∧ q.id = pid) ↔
      (∃ t, t ∈ ts ∧ t.tournament_id = tid ∧
        ∃ ps, inp.participants tid = .ok ps ∧
          ∃ p, findA (buildParticipantsMap ps) pid = some p ∧
            findA ((findA cache.participants tid).getD []) pid ≠ some p)) := by
  have hcont := processTournaments_cont wr inp ts cache hok
  constructor
  · intro tid
    have hmm : (∃ b q, (WriteOp.upsertTournament q, b) ∈ (runCycle inp wr cache).2 ∧
        q.tournament_id = tid) ↔
        (∃ b q, (WriteOp.upsertTournament q, b) ∈ (processTournaments wr inp ts cache).2.1 ∧
          q.tournament_id = tid) := by
      constructor <;> rintro ⟨b, q, hmem, hq⟩
      · exact ⟨b, q, (runCycle_keyed_mem inp wr cache ts ht hcont _
          (Or.inl ⟨q, b, rfl⟩)).mp hmem, hq⟩
      · exact ⟨b, q, (runCycle_keyed_mem inp wr cache ts ht hcont _
          (Or.inl ⟨q, b, rfl⟩)).mpr hmem, hq⟩
    rw [hmm]
    exact processTournaments_tournament_write_iff wr inp ts cache tid hnd hok
  · intro tid pid
    have hmm : (∃ b q, (WriteOp.upsertParticipant q, b) ∈ (runCycle inp wr cache).2 ∧
        q.tournament_id = tid ∧ q.id = pid) ↔
        (∃ b q, (WriteOp.upsertParticipant q, b) ∈ (processTournaments wr inp ts cache).2.1 ∧
          q.tournament_id = tid ∧ q.id = pid) := by
      constructor <;> rintro ⟨b, q, hmem, hq⟩
      · exact ⟨b, q, (runCycle_keyed_mem inp wr cache ts ht hcont _
          (Or.inr ⟨q, b, rfl⟩)).mp hmem, hq⟩
      · exact ⟨b, q, (runCycle_keyed_mem inp wr cache ts ht hcont _
          (Or.inr ⟨q, b, rfl⟩)).mpr hmem, hq⟩
    rw [hmm]
    exact processTournaments_participant_write_iff wr inp ts cache tid pid hnd hok

/-- A concrete tournament with id `"T1"`, for instantiating the keyed-diff
theorem. -/
def tournT : Tournament :=
  { organiser_chain := "c", organiser_id := "o", organiser_name := "n",
    tournament_id := "T1", tournament_name := "t", tournament_description := none,
    tournament_format := "swiss", match_type := "m", game_mode := "g",
    time_control := none, max_players := none, min_players := none,
    starting_time := 0, end_time := 0, prize_type := none,
    prize_pool_description := none, prize_pool := 0, visibility := "public",
    banner_image_url := none, sponsor_logo_url := none, custom_tags := [],
    version := "1", created_at := 0, updated_at := 0, status := "open" }

/-- Participant `p1` with elo 100 (cached and re-fetched unchanged). -/
def partP1 : TournamentParticipant :=
  { id := "p1", player := { name := none, elo := 100, matches_ := 0, ath := 0 } }

/-- Participant `p2` with elo 50 (new in the fetch). -/
def partP2 : TournamentParticipant :=
  { id := "p2", player := { name := none, elo := 50, matches_ := 0, ath := 0 } }

/-- Cycle input fetching tournament `T1` with participants `{p1, p2}`. -/
def inpC6 : CycleInput :=
  { tournaments := .ok [tournT],
    participants := fun tid => if tid = "T1" then .ok [partP1, partP2] else .ok [],
    leaderboard := .ok [], count := .ok 0, matches_ := .ok (some none) }

/-- Cache already holding `T1` and its participant `p1` unchanged. -/
def cacheC6 : CachedState :=
  { count := some 0, leaderboard := some [], matches_ := none,
    tournaments := [("T1", tournT)],
    participants := [("T1", [("p1", partP1)])] }

theorem keyed_diff_minimality_witness :
    (∃ b q, (WriteOp.upsertParticipant q, b) ∈
        (runCycle inpC6 (fun _ => true) cacheC6).2 ∧
      q.tournament_id = "T1" ∧ q.id = "p2") ∧
    ¬ (∃ b q, (WriteOp.upsertParticipant q, b) ∈
        (runCycle inpC6 (fun _ => true) cacheC6).2 ∧
      q.tournament_id = "T1" ∧ q.id = "p1") := by
  have h := keyed_diff_minimality inpC6 (fun _ => true) cacheC6 [tournT] rfl (by decide)
    (by
      intro t htmem
      have he : t = tournT := List.mem_singleton.mp htmem
      rw [he]
      exact ⟨[partP1, partP2], rfl⟩)
  constructor
  · refine (h.2 "T1" "p2").mpr
      ⟨tournT, List.mem_singleton.mpr rfl, rfl, [partP1, partP2], rfl, partP2, ?_, ?_⟩
    · decide
    · decide
  · intro hcon
    obtain ⟨t, _, _, ps, hps, p, hp1, hp2⟩ := (h.2 "T1" "p1").mp hcon
    have hps' : ps = [partP1, partP2] := by
      simp only [inpC6, if_pos rfl] at hps
      simpa using hps.symm
    rw [hps'] at hp1
    have hcomp : findA (buildParticipantsMap [partP1, partP2]) "p1" = some partP1 := by
      decide
    rw [hcomp] at hp1
    have hpe : p = partP1 := (Option.some_inj.mp hp1).symm
    rw [hpe] at hp2
    exact hp2 (by decide)
